import Mathlib

/-!
Verification of the YAML reference resolver (`yaml-reference-ts`).

This file gives a shallow embedding of the resolver found in
`src/resolver.ts` (the revision that threads `allowPaths` and handles the
`Flatten` marker), together with the parser's location-stamping pass from
`src/parser.ts` and the path arithmetic from Node's `path` module that the
resolver uses.  File access and glob enumeration are collaborator models: a
`Model` carries an association list of parsed files and a glob function.

Machine-level conventions of the embedding:
* JavaScript strings are Lean `String`s; the byte-wise comparisons used by
  `Array.prototype.sort` and `String.prototype.startsWith` are re-implemented
  over `String.data` so that they evaluate inside the kernel.
* All paths fed to the resolver in theorems are absolute POSIX paths, which
  matches how the resolver is exercised through `loadAndResolve` (the parser
  stamps the entry path and every recursively computed target is produced by
  `path.resolve`, hence absolute).
* The engine's recursion is modelled with an explicit fuel parameter that is
  consumed only when the engine descends into a referenced file.  The
  top-level entry point passes fuel `2 * number of files + 1`, which a lemma
  below proves is never exhausted, mirroring the termination argument of the
  JavaScript code (the visited set grows inside the finite file set).
-/

/-- Document node produced by the parser in `src/parser.ts`: a scalar
(null, boolean, number, string), an ordered sequence, a string-keyed mapping,
or one of the marker classes `Reference`, `ReferenceAll`, `Flatten`.  The
`Merge` marker class exists in the repository but the parser and resolver
under `src/` never produce or consume it, so it has no constructor here; the
merge operator is modelled separately from the spec. -/
inductive Doc where
  | null
  | boolV (b : Bool)
  | numV (n : Int)
  | strV (s : String)
  | seq (items : List Doc)
  | map (entries : List (String × Doc))
  | ref (location : String) (path : String)
  | refAll (location : String) (globPat : String)
  | flatten (sequence : List Doc)

/-- Errors thrown by the resolver, one constructor per `throw new Error(...)`
site kind in `src/resolver.ts` (the message strings are abstracted to the
data they carry).  `outOfFuel` is the embedding's artefact for exceeding the
modelled recursion depth; it never occurs at the fuel used by the top-level
entry point. -/
inductive RErr where
  | missingLocation
  | pathNotAllowed (target : String)
  | circular (target : String)
  | fileNotFound (target : String)
  | noMatch (pattern : String)
  | outOfFuel
deriving DecidableEq

mutual
/-- Boolean structural equality on documents (used to derive decidable
equality, which the derive handler cannot produce for this nested type). -/
def docBeq : Doc → Doc → Bool
  | .null, .null => true
  | .boolV a, .boolV b => a = b
  | .numV a, .numV b => a = b
  | .strV a, .strV b => a = b
  | .seq a, .seq b => docListBeq a b
  | .map a, .map b => docEntriesBeq a b
  | .ref l p, .ref l' p' => l = l' ∧ p = p'
  | .refAll l g, .refAll l' g' => l = l' ∧ g = g'
  | .flatten a, .flatten b => docListBeq a b
  | _, _ => false

/-- Boolean equality on document lists. -/
def docListBeq : List Doc → List Doc → Bool
  | [], [] => true
  | a :: as, b :: bs => docBeq a b && docListBeq as bs
  | _, _ => false

/-- Boolean equality on mapping entry lists. -/
def docEntriesBeq : List (String × Doc) → List (String × Doc) → Bool
  | [], [] => true
  | (k, a) :: as, (k', b) :: bs => decide (k = k') && docBeq a b && docEntriesBeq as bs
  | _, _ => false
end

mutual
theorem docBeq_eq : ∀ a b, docBeq a b = true → a = b := by
  intro a b h
  cases a <;> cases b <;> simp_all [docBeq]
  case seq.seq => exact docListBeq_eq _ _ h
  case map.map => exact docEntriesBeq_eq _ _ h
  case flatten.flatten => exact docListBeq_eq _ _ h

theorem docListBeq_eq : ∀ a b, docListBeq a b = true → a = b := by
  intro a b h
  cases a <;> cases b <;> simp_all [docListBeq]
  case cons.cons =>
    exact ⟨docBeq_eq _ _ h.1, docListBeq_eq _ _ h.2⟩

theorem docEntriesBeq_eq : ∀ a b, docEntriesBeq a b = true → a = b := by
  intro a b h
  match a, b with
  | [], [] => rfl
  | [], (_, _) :: _ => simp [docEntriesBeq] at h
  | (_, _) :: _, [] => simp [docEntriesBeq] at h
  | (k, x) :: as, (k', y) :: bs =>
    simp only [docEntriesBeq, Bool.and_eq_true, decide_eq_true_eq] at h
    obtain ⟨⟨hk, hx⟩, ht⟩ := h
    rw [hk, docBeq_eq _ _ hx, docEntriesBeq_eq as bs ht]
end

mutual
theorem docBeq_rfl : ∀ a, docBeq a a = true := by
  intro a
  cases a <;> simp [docBeq]
  case seq => exact docListBeq_rfl _
  case map => exact docEntriesBeq_rfl _
  case flatten => exact docListBeq_rfl _

theorem docListBeq_rfl : ∀ a, docListBeq a a = true := by
  intro a
  cases a <;> simp [docListBeq]
  case cons => exact ⟨docBeq_rfl _, docListBeq_rfl _⟩

theorem docEntriesBeq_rfl : ∀ a, docEntriesBeq a a = true := by
  intro a
  cases a <;> simp [docEntriesBeq]
  case cons => exact ⟨docBeq_rfl _, docEntriesBeq_rfl _⟩
end

instance : DecidableEq Doc := fun a b =>
  if h : docBeq a b = true then .isTrue (docBeq_eq a b h)
  else .isFalse (fun e => h (e ▸ docBeq_rfl a))

/-! ## Path arithmetic (POSIX, as used through Node's `path` module) -/

/-- Split a character list on `/`, keeping empty segments. -/
def splitSegsCh : List Char → List Char → List (List Char)
  | [], acc => [acc.reverse]
  | c :: cs, acc =>
    if c = '/' then acc.reverse :: splitSegsCh cs []
    else splitSegsCh cs (c :: acc)

/-- Path segments of a string: split on `/` and drop empty and `.` segments,
as `path.resolve` normalization does. -/
def pathSegs (s : String) : List String :=
  ((splitSegsCh s.data []).map (fun cs => String.mk cs)).filter
    (fun seg => ¬ (seg = "" ∨ seg = "."))

/-- Process `..` segments the way `path.resolve` does for an absolute path:
`..` pops the previous segment and `..` above the root stays at the root. -/
def normSegs (segs : List String) : List String :=
  segs.foldl (fun acc seg => if seg = ".." then acc.dropLast else acc ++ [seg]) []

/-- Join segments into an absolute path string. -/
def joinAbs (segs : List String) : String :=
  "/" ++ String.intercalate "/" segs

/-- Model of `path.resolve(p)` for an absolute `p`: normalization. -/
def normAbs (p : String) : String := joinAbs (normSegs (pathSegs p))

/-- Model of `path.dirname(p)` for an absolute `p`. -/
def dirname (p : String) : String := joinAbs ((pathSegs p).dropLast)

/-- Whether a string is an absolute POSIX path. -/
def isAbsoluteStr (s : String) : Bool :=
  match s.data with
  | '/' :: _ => true
  | _ => false

/-- Model of `path.resolve(dir, rel)` with `dir` absolute. -/
def resolvePath (dir rel : String) : String :=
  if isAbsoluteStr rel then normAbs rel
  else joinAbs (normSegs (pathSegs dir ++ pathSegs rel))

/-- Character-list prefix test (model of `String.prototype.startsWith`). -/
def isPrefixCh : List Char → List Char → Bool
  | [], _ => true
  | _ :: _, [] => false
  | a :: as, b :: bs => if a = b then isPrefixCh as bs else false

/-- Model of `target.startsWith(prefixStr)` on JavaScript strings. -/
def strStartsWith (s pre : String) : Bool := isPrefixCh pre.data s.data

/-- Model of `file.endsWith(suffix)` on JavaScript strings. -/
def strEndsWith (s suf : String) : Bool :=
  isPrefixCh suf.data.reverse s.data.reverse

/-- Byte-wise (code-point) lexicographic comparison on character lists,
the order used by JavaScript's default `Array.prototype.sort` on strings. -/
def lexLe : List Char → List Char → Bool
  | [], _ => true
  | _ :: _, [] => false
  | a :: as, b :: bs =>
    if a.toNat < b.toNat then true
    else if b.toNat < a.toNat then false
    else lexLe as bs

/-- Lexicographic comparison on strings. -/
def strLe (a b : String) : Bool := lexLe a.data b.data

/-- The lexicographic order as a decidable relation for sorting. -/
def strLeP (a b : String) : Prop := strLe a b = true

instance : DecidableRel strLeP := fun a b => instDecidableEqBool (strLe a b) true

theorem lexLe_total : ∀ a b, lexLe a b = true ∨ lexLe b a = true := by
  intro a
  induction a with
  | nil => intro b; left; rfl
  | cons x xs ih =>
    intro b
    cases b with
    | nil => right; rfl
    | cons y ys =>
      simp only [lexLe]
      rcases Nat.lt_trichotomy x.toNat y.toNat with h | h | h
      · left; simp [h]
      · have hxy : ¬ x.toNat < y.toNat := by omega
        have hyx : ¬ y.toNat < x.toNat := by omega
        rcases ih ys with h' | h' <;> simp [hxy, hyx, h']
      · right; simp [h]

theorem lexLe_trans : ∀ a b c, lexLe a b = true → lexLe b c = true →
    lexLe a c = true := by
  intro a
  induction a with
  | nil => intro b c _ _; rfl
  | cons x xs ih =>
    intro b c hab hbc
    cases b with
    | nil => simp [lexLe] at hab
    | cons y ys =>
      cases c with
      | nil => simp [lexLe] at hbc
      | cons z zs =>
        simp only [lexLe] at hab hbc ⊢
        rcases Nat.lt_trichotomy x.toNat y.toNat with hxy | hxy | hxy <;>
          rcases Nat.lt_trichotomy y.toNat z.toNat with hyz | hyz | hyz
        all_goals
          first
          | (have h1 : x.toNat < z.toNat := by omega
             rw [if_pos h1])
          | (rw [if_neg (by omega : ¬ x.toNat < y.toNat),
                 if_neg (by omega : ¬ y.toNat < x.toNat)] at hab
             rw [if_neg (by omega : ¬ y.toNat < z.toNat),
                 if_neg (by omega : ¬ z.toNat < y.toNat)] at hbc
             rw [if_neg (by omega : ¬ x.toNat < z.toNat),
                 if_neg (by omega : ¬ z.toNat < x.toNat)]
             exact ih ys zs hab hbc)
          | (rw [if_neg (by omega : ¬ x.toNat < y.toNat),
                 if_pos (by omega : y.toNat < x.toNat)] at hab
             exact absurd hab (by simp))
          | (rw [if_neg (by omega : ¬ y.toNat < z.toNat),
                 if_pos (by omega : z.toNat < y.toNat)] at hbc
             exact absurd hbc (by simp))

theorem lexLe_antisymm : ∀ a b, lexLe a b = true → lexLe b a = true → a = b := by
  intro a
  induction a with
  | nil =>
    intro b _ hba
    cases b with
    | nil => rfl
    | cons y ys => simp [lexLe] at hba
  | cons x xs ih =>
    intro b hab hba
    cases b with
    | nil => simp [lexLe] at hab
    | cons y ys =>
      simp only [lexLe] at hab hba
      rcases Nat.lt_trichotomy x.toNat y.toNat with hxy | hxy | hxy
      · rw [if_neg (by omega : ¬ y.toNat < x.toNat),
            if_pos (by omega : x.toNat < y.toNat)] at hba
        exact absurd hba (by simp)
      · rw [if_neg (by omega : ¬ x.toNat < y.toNat),
            if_neg (by omega : ¬ y.toNat < x.toNat)] at hab
        have hx : x = y := Char.ext (UInt32.ext hxy)
        rw [hx, ih ys hab (by
          rw [if_neg (by omega : ¬ y.toNat < x.toNat),
              if_neg (by omega : ¬ x.toNat < y.toNat)] at hba
          exact hba)]
      · rw [if_neg (by omega : ¬ x.toNat < y.toNat),
            if_pos (by omega : y.toNat < x.toNat)] at hab
        exact absurd hab (by simp)

instance : IsTotal String strLeP :=
  ⟨fun a b => lexLe_total a.data b.data⟩

instance : IsTrans String strLeP :=
  ⟨fun a b c => lexLe_trans a.data b.data c.data⟩

instance : IsAntisymm String strLeP :=
  ⟨fun a b hab hba => by
    have h := lexLe_antisymm a.data b.data hab hba
    cases a; cases b; exact congrArg String.mk h⟩

/-- Model of JavaScript `matchingFiles.sort()` (default string sort,
ascending byte-wise). -/
def sortStrings (l : List String) : List String := List.insertionSort strLeP l

/-! ## Small list helpers evaluating inside the kernel -/

/-- Membership test on string lists (model of `Set.prototype.has`). -/
def memStr (s : String) : List String → Bool
  | [] => false
  | t :: ts => if t = s then true else memStr s ts

/-- Removal from a string list (model of `Set.prototype.delete`; the visited
set never holds duplicates, so filtering all occurrences is exact). -/
def eraseStr : List String → String → List String
  | [], _ => []
  | t :: ts, s => if t = s then eraseStr ts s else t :: eraseStr ts s

/-- First-match association-list lookup (model of reading a file: the model
file system maps absolute paths to their parsed documents). -/
def lookupFile : List (String × Doc) → String → Option Doc
  | [], _ => none
  | (k, v) :: rest, p => if k = p then some v else lookupFile rest p

theorem memStr_iff_mem : ∀ (l : List String) s, memStr s l = true ↔ s ∈ l := by
  intro l s
  induction l with
  | nil => simp [memStr]
  | cons t ts ih =>
    by_cases h : t = s <;> simp [memStr, h, ih]
    exact fun h' => (h h'.symm).elim

theorem memStr_append (s : String) (a b : List String) :
    memStr s (a ++ b) = (memStr s a || memStr s b) := by
  induction a with
  | nil => simp [memStr]
  | cons t ts ih =>
    by_cases h : t = s <;> simp [memStr, h, ih]

theorem eraseStr_append (a b : List String) (s : String) :
    eraseStr (a ++ b) s = eraseStr a s ++ eraseStr b s := by
  induction a with
  | nil => simp [eraseStr]
  | cons t ts ih =>
    by_cases h : t = s <;> simp [eraseStr, h, ih]

theorem eraseStr_not_mem : ∀ (l : List String) s, memStr s l = false →
    eraseStr l s = l := by
  intro l s h
  induction l with
  | nil => rfl
  | cons t ts ih =>
    by_cases ht : t = s
    · simp [memStr, ht] at h
    · simp [memStr, ht] at h
      simp [eraseStr, ht, ih h]

/-! ## Collaborator model and parser stamping -/

/-- Collaborator model: `files` maps absolute paths to their parsed documents
(the parser collaborator is deterministic, so a file's parse is a fixed
document), and `glob` is the glob collaborator returning absolute matches for
an absolute pattern, in arbitrary order. -/
structure Model where
  files : List (String × Doc)
  glob : String → List String

mutual
/-- Model of `processParsedDocument` from `src/parser.ts`: stamp `_location`
with the path of the file being parsed on every marker node, recursing
through sequences, mappings and `Flatten` payloads. -/
def stampDoc (p : String) : Doc → Doc
  | .ref _ rel => .ref p rel
  | .refAll _ g => .refAll p g
  | .seq items => .seq (stampList p items)
  | .map es => .map (stampEntries p es)
  | .flatten items => .flatten (stampList p items)
  | d => d

/-- Stamping over a list of documents. -/
def stampList (p : String) : List Doc → List Doc
  | [] => []
  | d :: ds => stampDoc p d :: stampList p ds

/-- Stamping over mapping entries. -/
def stampEntries (p : String) : List (String × Doc) → List (String × Doc)
  | [] => []
  | (k, v) :: es => (k, stampDoc p v) :: stampEntries p es
end

/-- Model of the `allowPaths.some((allowedPath) => ... startsWith ...)` check
in `resolveReference` / `resolveReferenceAll`: plain string-prefix matching
after `path.resolve` on both sides (no segment alignment, no symlink
canonicalization). -/
def codeAllowedB (allow : List String) (target : String) : Bool :=
  allow.any (fun a => strStartsWith (normAbs target) (normAbs a))

/-- The match-list pipeline of `resolveReferenceAll` before the empty check:
keep files ending in `.yaml` or `.yml`, then, when an allow-list is present,
keep files passing the prefix check. -/
def filterPipeline (allow : List String) (ms : List String) : List String :=
  let ms1 := ms.filter (fun f => strEndsWith f ".yaml" || strEndsWith f ".yml")
  if allow.isEmpty then ms1 else ms1.filter (fun f => codeAllowedB allow f)

/-- The sorted, filtered match list a `MultiReference` resolves, for a
resolved absolute glob pattern. -/
def multiMatches (M : Model) (allow : List String) (pat : String) : List String :=
  sortStrings (filterPipeline allow (M.glob pat))

/-- Model of `normalizeAllowPaths` from `src/resolver.ts`: the entry file's
parent directory first, then each caller-supplied root resolved to absolute
form, skipping duplicates. -/
def normalizeAllowPaths (filePath : String) (allowPaths : List String) : List String :=
  allowPaths.foldl
    (fun acc a =>
      let ra := normAbs a
      if memStr ra acc then acc else acc ++ [ra])
    [dirname (normAbs filePath)]

mutual
/-- Model of `flattenSequences` from `src/resolver.ts`: arrays are flattened
by splicing nested (recursively flattened) arrays in place, `Flatten` markers
are replaced by their flattened payload, plain objects are rebuilt with
flattened values, and any other object falls into the generic
`Object.entries` branch (a leftover `Reference`/`ReferenceAll` instance is
rebuilt as a plain mapping of its own enumerable fields, in constructor
assignment order). -/
def flattenSequences : Doc → Doc
  | .seq items => .seq (flattenList items)
  | .flatten items => .seq (flattenList items)
  | .map es => .map (flattenEntries es)
  | .ref loc p => .map [("path", .strV p), ("_location", .strV loc)]
  | .refAll loc g => .map [("glob", .strV g), ("_location", .strV loc)]
  | d => d

/-- Array flattening: each element is recursively flattened; an element that
flattens to an array is spliced, anything else is pushed as-is. -/
def flattenList : List Doc → List Doc
  | [] => []
  | d :: ds =>
    match flattenSequences d with
    | .seq l => l ++ flattenList ds
    | d' => d' :: flattenList ds

/-- Flattening of mapping entries (values flattened in place). -/
def flattenEntries : List (String × Doc) → List (String × Doc)
  | [] => []
  | (k, v) :: es => (k, flattenSequences v) :: flattenEntries es
end

/-! ## The resolution engine

`resolveNode` is `_recursivelyResolveReferences`, with the `Reference` and
`ReferenceAll` branches (`resolveReference` / `resolveReferenceAll`) inlined;
`resolveList` / `resolveEntries` are its element loops, and `resolveFiles` is
the per-match loop of `resolveReferenceAll`.  Each function returns the
result together with the final visited set (the JavaScript code mutates one
shared `Set`); on an error the returned set is exactly what the code leaves
behind when the exception propagates.  The fuel parameter is decremented on
every call so that the definitions are structurally recursive (and therefore
evaluate inside the kernel); the top-level entry point passes enough fuel
that `outOfFuel` never occurs, which is exactly the JavaScript termination
argument (the visited set grows inside the finite file set). -/

mutual
def resolveNode (M : Model) (allow : List String) :
    Nat → Doc → List String → Except RErr Doc × List String
  | 0, _, V => (.error .outOfFuel, V)
  | f + 1, d, V =>
    match d with
    | .ref loc rel =>
      if loc = "" then (.error .missingLocation, V)
      else
        let target := resolvePath (dirname loc) rel
        if ¬ allow.isEmpty ∧ codeAllowedB allow target = false then
          (.error (.pathNotAllowed target), V)
        else if memStr target V then (.error (.circular target), V)
        else
          let V1 := V ++ [target]
          match lookupFile M.files target with
          | none => (.error (.fileNotFound target), V1)
          | some raw =>
            match resolveNode M allow f (stampDoc target raw) V1 with
            | (.ok r, V2) => (.ok r, eraseStr V2 target)
            | (.error e, V2) => (.error e, V2)
    | .refAll loc g =>
      if loc = "" then (.error .missingLocation, V)
      else
        let pat := resolvePath (dirname loc) g
        let ms2 := filterPipeline allow (M.glob pat)
        if ms2.isEmpty then (.error (.noMatch pat), V)
        else
          match resolveFiles M allow f (sortStrings ms2) V with
          | (.ok rs, V1) => (.ok (.seq rs), V1)
          | (.error e, V1) => (.error e, V1)
    | .flatten items =>
      match resolveList M allow f items V with
      | (.ok rs, V1) => (.ok (.flatten rs), V1)
      | (.error e, V1) => (.error e, V1)
    | .seq items =>
      match resolveList M allow f items V with
      | (.ok rs, V1) => (.ok (.seq rs), V1)
      | (.error e, V1) => (.error e, V1)
    | .map es =>
      match resolveEntries M allow f es V with
      | (.ok rs, V1) => (.ok (.map rs), V1)
      | (.error e, V1) => (.error e, V1)
    | d => (.ok d, V)
termination_by structural fuel => fuel

def resolveList (M : Model) (allow : List String) :
    Nat → List Doc → List String → Except RErr (List Doc) × List String
  | 0, _, V => (.error .outOfFuel, V)
  | _ + 1, [], V => (.ok [], V)
  | f + 1, d :: ds, V =>
    match resolveNode M allow f d V with
    | (.ok r, V1) =>
      match resolveList M allow f ds V1 with
      | (.ok rs, V2) => (.ok (r :: rs), V2)
      | (.error e, V2) => (.error e, V2)
    | (.error e, V1) => (.error e, V1)
termination_by structural fuel => fuel

def resolveEntries (M : Model) (allow : List String) :
    Nat → List (String × Doc) → List String →
    Except RErr (List (String × Doc)) × List String
  | 0, _, V => (.error .outOfFuel, V)
  | _ + 1, [], V => (.ok [], V)
  | f + 1, (k, v) :: rest, V =>
    match resolveNode M allow f v V with
    | (.ok r, V1) =>
      match resolveEntries M allow f rest V1 with
      | (.ok rs, V2) => (.ok ((k, r) :: rs), V2)
      | (.error e, V2) => (.error e, V2)
    | (.error e, V1) => (.error e, V1)
termination_by structural fuel => fuel

def resolveFiles (M : Model) (allow : List String) :
    Nat → List String → List String → Except RErr (List Doc) × List String
  | 0, _, V => (.error .outOfFuel, V)
  | _ + 1, [], V => (.ok [], V)
  | f + 1, p :: ps, V =>
    if memStr p V then (.error (.circular p), V)
    else
      let V1 := V ++ [p]
      match lookupFile M.files p with
      | none => (.error (.fileNotFound p), eraseStr V1 p)
      | some raw =>
        match resolveNode M allow f (stampDoc p raw) V1 with
        | (.error e, V2) => (.error e, eraseStr V2 p)
        | (.ok r, V2) =>
          match resolveFiles M allow f ps (eraseStr V2 p) with
          | (.ok rs, V4) => (.ok (r :: rs), V4)
          | (.error e, V4) => (.error e, V4)
termination_by structural fuel => fuel
end

/-! ## Fuel budget for the top-level entry point -/

/-- Fuel needed by the per-match loop of a `MultiReference` (the budget of
each matched file's own document is accounted in the per-file budget). -/
def filesNeed (ps : List String) : Nat := 2 * ps.length + 1

mutual
/-- Fuel needed for the engine to traverse a document's own structure. -/
def docNeed (M : Model) (allow : List String) : Doc → Nat
  | .seq items => 1 + listNeed M allow items
  | .map es => 1 + entriesNeed M allow es
  | .flatten items => 1 + listNeed M allow items
  | .refAll loc g =>
    1 + filesNeed (multiMatches M allow (resolvePath (dirname loc) g))
  | _ => 1

/-- Fuel needed for a list of documents. -/
def listNeed (M : Model) (allow : List String) : List Doc → Nat
  | [] => 1
  | d :: ds => 1 + docNeed M allow d + listNeed M allow ds

/-- Fuel needed for mapping entries. -/
def entriesNeed (M : Model) (allow : List String) : List (String × Doc) → Nat
  | [] => 1
  | (_, v) :: es => 1 + docNeed M allow v + entriesNeed M allow es
end

/-- Fuel budget of one file: its stamped document plus one call. -/
def fileNeed (M : Model) (allow : List String) (k : String) : Nat :=
  (match lookupFile M.files k with
   | some raw => docNeed M allow (stampDoc k raw)
   | none => 0) + 1

/-- Deduplicate a string list (keeping one occurrence of each element). -/
def dedupStr : List String → List String
  | [] => []
  | x :: xs =>
    if memStr x (dedupStr xs) then dedupStr xs else x :: dedupStr xs

/-- Total budget of the listed files that are not yet in the visited set. -/
def needList (M : Model) (allow : List String) (ks V : List String) : Nat :=
  match ks with
  | [] => 0
  | k :: ks' =>
    (if memStr k V then 0 else fileNeed M allow k) + needList M allow ks' V

/-- Total budget of all files not yet visited. -/
def freshNeed (M : Model) (allow : List String) (V : List String) : Nat :=
  needList M allow (dedupStr (M.files.map Prod.fst)) V

/-- Fuel the top-level entry point passes for an entry document. -/
def topFuel (M : Model) (allow : List String) (d0 : Doc) : Nat :=
  docNeed M allow d0 + freshNeed M allow []

/-- Model of `loadAndResolve` from `src/resolver.ts`: parse the entry file
(stamping its path on markers), resolve with a fresh visited set and the
normalized allow-list, and post-process with `flattenSequences`.  A missing
or unparsable entry file surfaces as an error. -/
def loadAndResolveM (M : Model) (filePath : String) (allowPaths : List String) :
    Except RErr Doc :=
  match lookupFile M.files filePath with
  | none => .error (.fileNotFound filePath)
  | some raw =>
    let allowN := normalizeAllowPaths filePath allowPaths
    let d0 := stampDoc filePath raw
    (resolveNode M allowN (topFuel M allowN d0) d0 []).1.map flattenSequences

instance : DecidableEq (Except RErr Doc) := fun
  | .ok a, .ok b =>
    if h : a = b then .isTrue (by rw [h]) else .isFalse (by simp [h])
  | .error e, .error e' =>
    if h : e = e' then .isTrue (by rw [h]) else .isFalse (by simp [h])
  | .ok _, .error _ => .isFalse (by simp)
  | .error _, .ok _ => .isFalse (by simp)

/-! ## The visited set is restored on success

On every successful return the engine leaves the visited set exactly as it
found it: the single-reference branch and the per-match loop both delete the
path they inserted before returning.  (The failure paths are a different
story, settled with the claims below.) -/

theorem eraseStr_append_self (V : List String) (t : String)
    (h : memStr t V = false) : eraseStr (V ++ [t]) t = V := by
  rw [eraseStr_append, eraseStr_not_mem V t h]
  simp [eraseStr]

theorem resolve_restore (M : Model) (allow : List String) : ∀ f : Nat,
    (∀ d V r V', resolveNode M allow f d V = (.ok r, V') → V' = V) ∧
    (∀ l V rs V', resolveList M allow f l V = (.ok rs, V') → V' = V) ∧
    (∀ es V rs V', resolveEntries M allow f es V = (.ok rs, V') → V' = V) ∧
    (∀ ps V rs V', resolveFiles M allow f ps V = (.ok rs, V') → V' = V) := by
  intro f
  induction f with
  | zero =>
    refine ⟨?_, ?_, ?_, ?_⟩ <;> intro a V r V' h <;>
      simp [resolveNode, resolveList, resolveEntries, resolveFiles] at h
  | succ f ih =>
    obtain ⟨ihN, ihL, ihE, ihF⟩ := ih
    refine ⟨?_, ?_, ?_, ?_⟩
    · intro d V r V' h
      cases d <;> simp only [resolveNode] at h
      case ref loc rel =>
        split at h
        next hloc => exact absurd h (by simp)
        next hloc =>
          split at h
          next hguard => exact absurd h (by simp)
          next hguard =>
            split at h
            next hmem => exact absurd h (by simp)
            next hmem =>
              split at h
              next hlook => exact absurd h (by simp)
              next raw hlook =>
                split at h
                next r2 V2 heq =>
                  obtain ⟨hr, hV⟩ := by simpa using h
                  subst hr hV
                  rw [ihN _ _ _ _ heq]
                  exact eraseStr_append_self V _ (by simpa using hmem)
                next e V2 heq => exact absurd h (by simp)
      case refAll loc g =>
        split at h
        · exact absurd h (by simp)
        · split at h
          · exact absurd h (by simp)
          · split at h
            next rs V1 heq =>
              obtain ⟨hr, hV⟩ := by simpa using h
              subst hr hV
              exact ihF _ _ _ _ heq
            next e V1 heq => exact absurd h (by simp)
      case seq items =>
        split at h
        next rs V1 heq =>
          obtain ⟨hr, hV⟩ := by simpa using h
          subst hr hV
          exact ihL _ _ _ _ heq
        next e V1 heq => exact absurd h (by simp)
      case map es =>
        split at h
        next rs V1 heq =>
          obtain ⟨hr, hV⟩ := by simpa using h
          subst hr hV
          exact ihE _ _ _ _ heq
        next e V1 heq => exact absurd h (by simp)
      case flatten items =>
        split at h
        next rs V1 heq =>
          obtain ⟨hr, hV⟩ := by simpa using h
          subst hr hV
          exact ihL _ _ _ _ heq
        next e V1 heq => exact absurd h (by simp)
      all_goals
        obtain ⟨hr, hV⟩ := by simpa using h
        exact hV.symm
    · intro l V rs V' h
      cases l with
      | nil =>
        simp only [resolveList] at h
        obtain ⟨hr, hV⟩ := by simpa using h
        exact hV.symm
      | cons d ds =>
        simp only [resolveList] at h
        split at h
        next r1 V1 heq1 =>
          split at h
          next rs2 V2 heq2 =>
            obtain ⟨hr, hV⟩ := by simpa using h
            subst hV
            rw [ihL _ _ _ _ heq2, ihN _ _ _ _ heq1]
          next e V2 heq2 => exact absurd h (by simp)
        next e V1 heq1 => exact absurd h (by simp)
    · intro es V rs V' h
      cases es with
      | nil =>
        simp only [resolveEntries] at h
        obtain ⟨hr, hV⟩ := by simpa using h
        exact hV.symm
      | cons kv rest =>
        obtain ⟨k, v⟩ := kv
        simp only [resolveEntries] at h
        split at h
        next r1 V1 heq1 =>
          split at h
          next rs2 V2 heq2 =>
            obtain ⟨hr, hV⟩ := by simpa using h
            subst hV
            rw [ihE _ _ _ _ heq2, ihN _ _ _ _ heq1]
          next e V2 heq2 => exact absurd h (by simp)
        next e V1 heq1 => exact absurd h (by simp)
    · intro ps V rs V' h
      cases ps with
      | nil =>
        simp only [resolveFiles] at h
        obtain ⟨hr, hV⟩ := by simpa using h
        exact hV.symm
      | cons p ps' =>
        simp only [resolveFiles] at h
        split at h
        next hmem => exact absurd h (by simp)
        next hmem =>
          split at h
          next hlook => exact absurd h (by simp)
          next raw hlook =>
            split at h
            next e V2 heq => exact absurd h (by simp)
            next r1 V2 heq1 =>
              split at h
              next rs2 V4 heq2 =>
                obtain ⟨hr, hV⟩ := by simpa using h
                subst hV
                rw [ihF _ _ _ _ heq2, ihN _ _ _ _ heq1]
                exact eraseStr_append_self V _ (by simpa using hmem)
              next e V4 heq2 => exact absurd h (by simp)

/-! ## Fuel sufficiency: the engine never exhausts the top-level budget -/

theorem lookupFile_memStr : ∀ (files : List (String × Doc)) k raw,
    lookupFile files k = some raw → memStr k (files.map Prod.fst) = true := by
  intro files k raw h
  induction files with
  | nil => simp [lookupFile] at h
  | cons kv rest ih =>
    obtain ⟨k', v⟩ := kv
    by_cases hk : k' = k
    · simp [memStr, hk]
    · simp only [lookupFile, if_neg hk] at h
      simp [memStr, hk, ih h]

theorem memStr_dedupStr : ∀ (l : List String) s,
    memStr s (dedupStr l) = memStr s l := by
  intro l s
  induction l with
  | nil => rfl
  | cons x xs ih =>
    by_cases hx : memStr x (dedupStr xs) = true
    · simp only [dedupStr, if_pos hx]
      rw [ih]
      simp only [memStr]
      by_cases hxs : x = s
      · rw [if_pos hxs]
        subst hxs
        rw [← ih]
        exact hx
      · rw [if_neg hxs]
    · simp only [dedupStr, if_neg hx, memStr, ih]

theorem needList_insert_not_mem (M : Model) (allow : List String) :
    ∀ (D : List String) k V, memStr k D = false →
    needList M allow D (V ++ [k]) = needList M allow D V := by
  intro D k V h
  induction D with
  | nil => rfl
  | cons e D' ih =>
    by_cases he : e = k
    · simp [memStr, he] at h
    · simp only [memStr] at h
      rw [if_neg he] at h
      have hek : memStr e (V ++ [k]) = memStr e V := by
        rw [memStr_append]
        have h1 : memStr e [k] = false := by
          simp only [memStr]
          rw [if_neg (fun hk => he hk.symm)]
        simp [h1]
      simp only [needList, hek, ih h]

theorem needList_insert (M : Model) (allow : List String) :
    ∀ (l : List String) k V, memStr k (dedupStr l) = true →
    memStr k V = false →
    needList M allow (dedupStr l) V
      = fileNeed M allow k + needList M allow (dedupStr l) (V ++ [k]) := by
  intro l k V hmem hV
  induction l with
  | nil => simp [dedupStr, memStr] at hmem
  | cons x xs ih =>
    by_cases hx : memStr x (dedupStr xs) = true
    · simp only [dedupStr, if_pos hx] at hmem ⊢
      exact ih hmem
    · simp only [dedupStr, if_neg hx] at hmem ⊢
      by_cases hxk : x = k
      · subst hxk
        have hxV1 : memStr x (V ++ [x]) = true := by
          rw [memStr_append]
          simp [memStr]
        have h0 : (if memStr x V then 0 else fileNeed M allow x)
            = fileNeed M allow x := by
          rw [hV]
          simp
        have h1 : (if memStr x (V ++ [x]) then 0 else fileNeed M allow x)
            = 0 := by
          rw [hxV1]
          simp
        simp only [needList, h0, h1]
        rw [needList_insert_not_mem M allow _ x V (by simpa using hx)]
        omega
      · simp only [memStr, if_neg hxk] at hmem
        have hxV : memStr x (V ++ [k]) = memStr x V := by
          rw [memStr_append]
          have h1 : memStr x [k] = false := by
            simp only [memStr]
            rw [if_neg (fun hk => hxk hk.symm)]
          simp [h1]
        simp only [needList, hxV]
        rw [ih hmem]
        omega

theorem freshNeed_insert (M : Model) (allow : List String) (t : String)
    (raw : Doc) (V : List String) (hlook : lookupFile M.files t = some raw)
    (hV : memStr t V = false) :
    freshNeed M allow V = fileNeed M allow t + freshNeed M allow (V ++ [t]) := by
  unfold freshNeed
  exact needList_insert M allow _ t V
    (by rw [memStr_dedupStr]; exact lookupFile_memStr _ _ _ hlook) hV

theorem docNeed_pos (M : Model) (allow : List String) (d : Doc) :
    1 ≤ docNeed M allow d := by
  cases d <;> simp only [docNeed] <;> omega

theorem listNeed_pos (M : Model) (allow : List String) (l : List Doc) :
    1 ≤ listNeed M allow l := by
  cases l <;> simp only [listNeed] <;> omega

theorem entriesNeed_pos (M : Model) (allow : List String)
    (es : List (String × Doc)) : 1 ≤ entriesNeed M allow es := by
  cases es with
  | nil => simp only [entriesNeed]; omega
  | cons kv rest =>
    obtain ⟨k, v⟩ := kv
    simp only [entriesNeed]
    omega

theorem fileNeed_eq (M : Model) (allow : List String) (t : String) (raw : Doc)
    (h : lookupFile M.files t = some raw) :
    fileNeed M allow t = docNeed M allow (stampDoc t raw) + 1 := by
  unfold fileNeed
  rw [h]

theorem resolve_sufficient (M : Model) (allow : List String) : ∀ f : Nat,
    (∀ d V, docNeed M allow d + freshNeed M allow V ≤ f →
      (resolveNode M allow f d V).1 ≠ .error .outOfFuel) ∧
    (∀ l V, listNeed M allow l + freshNeed M allow V ≤ f →
      (resolveList M allow f l V).1 ≠ .error .outOfFuel) ∧
    (∀ es V, entriesNeed M allow es + freshNeed M allow V ≤ f →
      (resolveEntries M allow f es V).1 ≠ .error .outOfFuel) ∧
    (∀ ps V, filesNeed ps + freshNeed M allow V ≤ f →
      (resolveFiles M allow f ps V).1 ≠ .error .outOfFuel) := by
  intro f
  induction f with
  | zero =>
    refine ⟨?_, ?_, ?_, ?_⟩ <;> intro a V hle
    · exact absurd hle (by have := docNeed_pos M allow a; omega)
    · exact absurd hle (by have := listNeed_pos M allow a; omega)
    · exact absurd hle (by have := entriesNeed_pos M allow a; omega)
    · exact absurd hle (by simp only [filesNeed] at hle; omega)
  | succ f ih =>
    obtain ⟨ihN, ihL, ihE, ihF⟩ := ih
    refine ⟨?_, ?_, ?_, ?_⟩
    · intro d V hle
      cases d <;> simp only [resolveNode]
      case ref loc rel =>
        split
        next hloc => simp
        next hloc =>
          split
          next hguard => simp
          next hguard =>
            split
            next hmem => simp
            next hmem =>
              split
              next hlook => simp
              next raw hlook =>
                have hfr := freshNeed_insert M allow _ raw V hlook
                  (by simpa using hmem)
                have hfn := fileNeed_eq M allow _ raw hlook
                have harith :
                    docNeed M allow (stampDoc (resolvePath (dirname loc) rel) raw)
                      + freshNeed M allow (V ++ [resolvePath (dirname loc) rel])
                      ≤ f := by
                  simp only [docNeed] at hle
                  omega
                have hres := ihN _ _ harith
                split
                next r2 V2 heq => simp
                next e V2 heq =>
                  rw [heq] at hres
                  simpa using hres
      case refAll loc g =>
        split
        next hloc => simp
        next hloc =>
          split
          next hempty => simp
          next hempty =>
            have harith :
                filesNeed (sortStrings (filterPipeline allow
                    (M.glob (resolvePath (dirname loc) g))))
                  + freshNeed M allow V ≤ f := by
              simp only [docNeed, multiMatches] at hle
              omega
            have hres := ihF _ _ harith
            split
            next rs V1 heq => simp
            next e V1 heq =>
              rw [heq] at hres
              simpa using hres
      case seq items =>
        have harith : listNeed M allow items + freshNeed M allow V ≤ f := by
          simp only [docNeed] at hle
          omega
        have hres := ihL _ _ harith
        split
        next rs V1 heq => simp
        next e V1 heq =>
          rw [heq] at hres
          simpa using hres
      case map es =>
        have harith : entriesNeed M allow es + freshNeed M allow V ≤ f := by
          simp only [docNeed] at hle
          omega
        have hres := ihE _ _ harith
        split
        next rs V1 heq => simp
        next e V1 heq =>
          rw [heq] at hres
          simpa using hres
      case flatten items =>
        have harith : listNeed M allow items + freshNeed M allow V ≤ f := by
          simp only [docNeed] at hle
          omega
        have hres := ihL _ _ harith
        split
        next rs V1 heq => simp
        next e V1 heq =>
          rw [heq] at hres
          simpa using hres
      all_goals simp
    · intro l V hle
      cases l with
      | nil => simp [resolveList]
      | cons d ds =>
        simp only [resolveList]
        split
        next r1 V1 heq1 =>
          have hV1 : V1 = V := (resolve_restore M allow f).1 _ _ _ _ heq1
          split
          next rs V2 heq2 => simp
          next e V2 heq2 =>
            have hds : listNeed M allow ds + freshNeed M allow V ≤ f := by
              simp only [listNeed] at hle
              omega
            have hres := ihL ds V hds
            rw [hV1] at heq2
            rw [heq2] at hres
            simpa using hres
        next e V1 heq1 =>
          have hd : docNeed M allow d + freshNeed M allow V ≤ f := by
            simp only [listNeed] at hle
            omega
          have hres := ihN d V hd
          rw [heq1] at hres
          simpa using hres
    · intro es V hle
      cases es with
      | nil => simp [resolveEntries]
      | cons kv rest =>
        obtain ⟨k, v⟩ := kv
        simp only [resolveEntries]
        split
        next r1 V1 heq1 =>
          have hV1 : V1 = V := (resolve_restore M allow f).1 _ _ _ _ heq1
          split
          next rs V2 heq2 => simp
          next e V2 heq2 =>
            have hds : entriesNeed M allow rest + freshNeed M allow V ≤ f := by
              simp only [entriesNeed] at hle
              omega
            have hres := ihE rest V hds
            rw [hV1] at heq2
            rw [heq2] at hres
            simpa using hres
        next e V1 heq1 =>
          have hd : docNeed M allow v + freshNeed M allow V ≤ f := by
            simp only [entriesNeed] at hle
            omega
          have hres := ihN v V hd
          rw [heq1] at hres
          simpa using hres
    · intro ps V hle
      cases ps with
      | nil => simp [resolveFiles]
      | cons p ps' =>
        simp only [resolveFiles]
        split
        next hmem => simp
        next hmem =>
          split
          next hlook => simp
          next raw hlook =>
            have hfr := freshNeed_insert M allow p raw V hlook
              (by simpa using hmem)
            have hfn := fileNeed_eq M allow p raw hlook
            have harith :
                docNeed M allow (stampDoc p raw)
                  + freshNeed M allow (V ++ [p]) ≤ f := by
              simp only [filesNeed, List.length_cons] at hle
              omega
            split
            next e V2 heq =>
              have hres := ihN _ _ harith
              rw [heq] at hres
              simpa using hres
            next r1 V2 heq1 =>
              have hV2 : V2 = V ++ [p] :=
                (resolve_restore M allow f).1 _ _ _ _ heq1
              have herase : eraseStr V2 p = V := by
                rw [hV2]
                exact eraseStr_append_self V p (by simpa using hmem)
              split
              next rs V4 heq2 => simp
              next e V4 heq2 =>
                rw [herase] at heq2
                have hps : filesNeed ps' + freshNeed M allow V ≤ f := by
                  simp only [filesNeed, List.length_cons] at hle
                  simp only [filesNeed]
                  omega
                have hres := ihF ps' V hps
                rw [heq2] at hres
                simpa using hres

/-! ## Marker predicates and marker-freedom of successful results -/

mutual
/-- Whether a document contains no `Reference` / `ReferenceAll` marker
(a `Flatten` marker may still be present). -/
def noRefB : Doc → Bool
  | .ref _ _ => false
  | .refAll _ _ => false
  | .seq items => noRefListB items
  | .flatten items => noRefListB items
  | .map es => noRefEntriesB es
  | _ => true

/-- Reference-freedom over a list of documents. -/
def noRefListB : List Doc → Bool
  | [] => true
  | d :: ds => noRefB d && noRefListB ds

/-- Reference-freedom over mapping entries. -/
def noRefEntriesB : List (String × Doc) → Bool
  | [] => true
  | (_, v) :: es => noRefB v && noRefEntriesB es
end

mutual
/-- Whether a document contains no marker node of any kind (no
`SingleReference`, no `MultiReference`, no `Flatten`; the `Merge` marker is
not producible by the parser under `src/`, see `Doc`). -/
def noMarkerB : Doc → Bool
  | .ref _ _ => false
  | .refAll _ _ => false
  | .flatten _ => false
  | .seq items => noMarkerListB items
  | .map es => noMarkerEntriesB es
  | _ => true

/-- Marker-freedom over a list of documents. -/
def noMarkerListB : List Doc → Bool
  | [] => true
  | d :: ds => noMarkerB d && noMarkerListB ds

/-- Marker-freedom over mapping entries. -/
def noMarkerEntriesB : List (String × Doc) → Bool
  | [] => true
  | (_, v) :: es => noMarkerB v && noMarkerEntriesB es
end

theorem resolve_noRef (M : Model) (allow : List String) : ∀ f : Nat,
    (∀ d V r V', resolveNode M allow f d V = (.ok r, V') → noRefB r = true) ∧
    (∀ l V rs V', resolveList M allow f l V = (.ok rs, V') →
      noRefListB rs = true) ∧
    (∀ es V rs V', resolveEntries M allow f es V = (.ok rs, V') →
      noRefEntriesB rs = true) ∧
    (∀ ps V rs V', resolveFiles M allow f ps V = (.ok rs, V') →
      noRefListB rs = true) := by
  intro f
  induction f with
  | zero =>
    refine ⟨?_, ?_, ?_, ?_⟩ <;> intro a V r V' h <;>
      simp [resolveNode, resolveList, resolveEntries, resolveFiles] at h
  | succ f ih =>
    obtain ⟨ihN, ihL, ihE, ihF⟩ := ih
    refine ⟨?_, ?_, ?_, ?_⟩
    · intro d V r V' h
      cases d <;> simp only [resolveNode] at h
      case ref loc rel =>
        split at h
        next hloc => exact absurd h (by simp)
        next hloc =>
          split at h
          next hguard => exact absurd h (by simp)
          next hguard =>
            split at h
            next hmem => exact absurd h (by simp)
            next hmem =>
              split at h
              next hlook => exact absurd h (by simp)
              next raw hlook =>
                split at h
                next r2 V2 heq =>
                  obtain ⟨hr, hV⟩ := by simpa using h
                  subst hr
                  exact ihN _ _ _ _ heq
                next e V2 heq => exact absurd h (by simp)
      case refAll loc g =>
        split at h
        next hloc => exact absurd h (by simp)
        next hloc =>
          split at h
          next hempty => exact absurd h (by simp)
          next hempty =>
            split at h
            next rs V1 heq =>
              obtain ⟨hr, hV⟩ := by simpa using h
              subst hr
              exact ihF _ _ _ _ heq
            next e V1 heq => exact absurd h (by simp)
      case seq items =>
        split at h
        next rs V1 heq =>
          obtain ⟨hr, hV⟩ := by simpa using h
          subst hr
          exact ihL _ _ _ _ heq
        next e V1 heq => exact absurd h (by simp)
      case map es =>
        split at h
        next rs V1 heq =>
          obtain ⟨hr, hV⟩ := by simpa using h
          subst hr
          exact ihE _ _ _ _ heq
        next e V1 heq => exact absurd h (by simp)
      case flatten items =>
        split at h
        next rs V1 heq =>
          obtain ⟨hr, hV⟩ := by simpa using h
          subst hr
          exact ihL _ _ _ _ heq
        next e V1 heq => exact absurd h (by simp)
      all_goals
        obtain ⟨hr, hV⟩ := by simpa using h
        subst hr
        simp [noRefB]
    · intro l V rs V' h
      cases l with
      | nil =>
        simp only [resolveList] at h
        obtain ⟨hr, hV⟩ := by simpa using h
        subst hr
        simp [noRefListB]
      | cons d ds =>
        simp only [resolveList] at h
        split at h
        next r1 V1 heq1 =>
          split at h
          next rs2 V2 heq2 =>
            obtain ⟨hr, hV⟩ := by simpa using h
            subst hr
            simp [noRefListB, ihN _ _ _ _ heq1, ihL _ _ _ _ heq2]
          next e V2 heq2 => exact absurd h (by simp)
        next e V1 heq1 => exact absurd h (by simp)
    · intro es V rs V' h
      cases es with
      | nil =>
        simp only [resolveEntries] at h
        obtain ⟨hr, hV⟩ := by simpa using h
        subst hr
        simp [noRefEntriesB]
      | cons kv rest =>
        obtain ⟨k, v⟩ := kv
        simp only [resolveEntries] at h
        split at h
        next r1 V1 heq1 =>
          split at h
          next rs2 V2 heq2 =>
            obtain ⟨hr, hV⟩ := by simpa using h
            subst hr
            simp [noRefEntriesB, ihN _ _ _ _ heq1, ihE _ _ _ _ heq2]
          next e V2 heq2 => exact absurd h (by simp)
        next e V1 heq1 => exact absurd h (by simp)
    · intro ps V rs V' h
      cases ps with
      | nil =>
        simp only [resolveFiles] at h
        obtain ⟨hr, hV⟩ := by simpa using h
        subst hr
        simp [noRefListB]
      | cons p ps' =>
        simp only [resolveFiles] at h
        split at h
        next hmem => exact absurd h (by simp)
        next hmem =>
          split at h
          next hlook => exact absurd h (by simp)
          next raw hlook =>
            split at h
            next e V2 heq => exact absurd h (by simp)
            next r1 V2 heq1 =>
              split at h
              next rs2 V4 heq2 =>
                obtain ⟨hr, hV⟩ := by simpa using h
                subst hr
                simp [noRefListB, ihN _ _ _ _ heq1, ihF _ _ _ _ heq2]
              next e V4 heq2 => exact absurd h (by simp)

/-! ## Properties of the `flattenSequences` operator -/

/-- Whether a document is a sequence node. -/
def isSeqB : Doc → Bool
  | .seq _ => true
  | _ => false

/-- Whether a document is a scalar (null, boolean, number or string). -/
def isScalarB : Doc → Bool
  | .null => true
  | .boolV _ => true
  | .numV _ => true
  | .strV _ => true
  | _ => false

/-- Whether no element of a list is a sequence node. -/
def noSeqElemB : List Doc → Bool
  | [] => true
  | d :: ds => !(isSeqB d) && noSeqElemB ds

theorem noSeqElemB_append (a b : List Doc) :
    noSeqElemB (a ++ b) = (noSeqElemB a && noSeqElemB b) := by
  induction a with
  | nil => simp [noSeqElemB]
  | cons d ds ih => simp [noSeqElemB, ih, Bool.and_assoc]

theorem noMarkerListB_append (a b : List Doc) :
    noMarkerListB (a ++ b) = (noMarkerListB a && noMarkerListB b) := by
  induction a with
  | nil => simp [noMarkerListB]
  | cons d ds ih => simp [noMarkerListB, ih, Bool.and_assoc]

theorem flattenList_cons_of_seq (d : Doc) (ds x : List Doc)
    (h : flattenSequences d = .seq x) :
    flattenList (d :: ds) = x ++ flattenList ds := by
  simp only [flattenList, h]

theorem flattenList_cons_of_not_seq (d : Doc) (ds : List Doc)
    (h : isSeqB (flattenSequences d) = false) :
    flattenList (d :: ds) = flattenSequences d :: flattenList ds := by
  cases hfd : flattenSequences d <;> simp only [flattenList, hfd]
  rw [hfd] at h
  simp [isSeqB] at h

theorem flattenList_append (a b : List Doc) :
    flattenList (a ++ b) = flattenList a ++ flattenList b := by
  induction a with
  | nil => simp [flattenList]
  | cons d ds ih =>
    cases hfd : flattenSequences d with
    | seq x =>
      rw [List.cons_append, flattenList_cons_of_seq d (ds ++ b) x hfd,
        flattenList_cons_of_seq d ds x hfd, ih, List.append_assoc]
    | null =>
      rw [List.cons_append, flattenList_cons_of_not_seq d (ds ++ b) (by rw [hfd]; rfl),
        flattenList_cons_of_not_seq d ds (by rw [hfd]; rfl), ih, List.cons_append]
    | boolV bb =>
      rw [List.cons_append, flattenList_cons_of_not_seq d (ds ++ b) (by rw [hfd]; rfl),
        flattenList_cons_of_not_seq d ds (by rw [hfd]; rfl), ih, List.cons_append]
    | numV n =>
      rw [List.cons_append, flattenList_cons_of_not_seq d (ds ++ b) (by rw [hfd]; rfl),
        flattenList_cons_of_not_seq d ds (by rw [hfd]; rfl), ih, List.cons_append]
    | strV sv =>
      rw [List.cons_append, flattenList_cons_of_not_seq d (ds ++ b) (by rw [hfd]; rfl),
        flattenList_cons_of_not_seq d ds (by rw [hfd]; rfl), ih, List.cons_append]
    | map es =>
      rw [List.cons_append, flattenList_cons_of_not_seq d (ds ++ b) (by rw [hfd]; rfl),
        flattenList_cons_of_not_seq d ds (by rw [hfd]; rfl), ih, List.cons_append]
    | ref l p =>
      rw [List.cons_append, flattenList_cons_of_not_seq d (ds ++ b) (by rw [hfd]; rfl),
        flattenList_cons_of_not_seq d ds (by rw [hfd]; rfl), ih, List.cons_append]
    | refAll l g =>
      rw [List.cons_append, flattenList_cons_of_not_seq d (ds ++ b) (by rw [hfd]; rfl),
        flattenList_cons_of_not_seq d ds (by rw [hfd]; rfl), ih, List.cons_append]
    | flatten xs =>
      rw [List.cons_append, flattenList_cons_of_not_seq d (ds ++ b) (by rw [hfd]; rfl),
        flattenList_cons_of_not_seq d ds (by rw [hfd]; rfl), ih, List.cons_append]

mutual
theorem flatten_noMarker : ∀ d, noRefB d = true →
    noMarkerB (flattenSequences d) = true := by
  intro d h
  cases d <;> simp only [flattenSequences]
  case ref => simp [noRefB] at h
  case refAll => simp [noRefB] at h
  case seq items =>
    simp only [noRefB] at h
    simp only [noMarkerB]
    exact flattenList_noMarker items h
  case flatten items =>
    simp only [noRefB] at h
    simp only [noMarkerB]
    exact flattenList_noMarker items h
  case map es =>
    simp only [noRefB] at h
    simp only [noMarkerB]
    exact flattenEntries_noMarker es h
  all_goals simp [noMarkerB]

theorem flattenList_noMarker : ∀ l, noRefListB l = true →
    noMarkerListB (flattenList l) = true := by
  intro l h
  match l with
  | [] => rfl
  | d :: ds =>
    simp only [noRefListB, Bool.and_eq_true] at h
    have hd := flatten_noMarker d h.1
    have hds := flattenList_noMarker ds h.2
    cases hfd : flattenSequences d with
    | seq x =>
      rw [flattenList_cons_of_seq d ds x hfd, noMarkerListB_append]
      rw [hfd] at hd
      simp only [noMarkerB] at hd
      simp [hd, hds]
    | null =>
      rw [flattenList_cons_of_not_seq d ds (by rw [hfd]; rfl), hfd]
      simp [noMarkerListB, noMarkerB, hds]
    | boolV bb =>
      rw [flattenList_cons_of_not_seq d ds (by rw [hfd]; rfl), hfd]
      simp [noMarkerListB, noMarkerB, hds]
    | numV n =>
      rw [flattenList_cons_of_not_seq d ds (by rw [hfd]; rfl), hfd]
      simp [noMarkerListB, noMarkerB, hds]
    | strV sv =>
      rw [flattenList_cons_of_not_seq d ds (by rw [hfd]; rfl), hfd]
      simp [noMarkerListB, noMarkerB, hds]
    | map es =>
      rw [flattenList_cons_of_not_seq d ds (by rw [hfd]; rfl), hfd]
      rw [hfd] at hd
      simp only [noMarkerListB]
      simp [hd, hds]
    | ref lo p =>
      rw [flattenList_cons_of_not_seq d ds (by rw [hfd]; rfl), hfd]
      rw [hfd] at hd
      simp only [noMarkerListB]
      simp [hd, hds]
    | refAll lo g =>
      rw [flattenList_cons_of_not_seq d ds (by rw [hfd]; rfl), hfd]
      rw [hfd] at hd
      simp only [noMarkerListB]
      simp [hd, hds]
    | flatten xs =>
      rw [flattenList_cons_of_not_seq d ds (by rw [hfd]; rfl), hfd]
      rw [hfd] at hd
      simp only [noMarkerListB]
      simp [hd, hds]

theorem flattenEntries_noMarker : ∀ es, noRefEntriesB es = true →
    noMarkerEntriesB (flattenEntries es) = true := by
  intro es h
  match es with
  | [] => rfl
  | (k, v) :: rest =>
    simp only [noRefEntriesB, Bool.and_eq_true] at h
    simp only [flattenEntries, noMarkerEntriesB, Bool.and_eq_true]
    exact ⟨flatten_noMarker v h.1, flattenEntries_noMarker rest h.2⟩
end

mutual
theorem flattenSequences_seq_noSeqElem : ∀ d x, flattenSequences d = .seq x →
    noSeqElemB x = true := by
  intro d x h
  cases d <;> simp only [flattenSequences] at h
  case seq items =>
    obtain rfl : flattenList items = x := by simpa using h
    exact flattenList_noSeqElem items
  case flatten items =>
    obtain rfl : flattenList items = x := by simpa using h
    exact flattenList_noSeqElem items
  all_goals simp_all

theorem flattenList_noSeqElem : ∀ items, noSeqElemB (flattenList items) = true := by
  intro items
  match items with
  | [] => rfl
  | d :: ds =>
    have hds := flattenList_noSeqElem ds
    cases hfd : flattenSequences d with
    | seq x =>
      rw [flattenList_cons_of_seq d ds x hfd, noSeqElemB_append]
      simp [flattenSequences_seq_noSeqElem d x hfd, hds]
    | null =>
      rw [flattenList_cons_of_not_seq d ds (by rw [hfd]; rfl), hfd]
      simp [noSeqElemB, isSeqB, hds]
    | boolV bb =>
      rw [flattenList_cons_of_not_seq d ds (by rw [hfd]; rfl), hfd]
      simp [noSeqElemB, isSeqB, hds]
    | numV n =>
      rw [flattenList_cons_of_not_seq d ds (by rw [hfd]; rfl), hfd]
      simp [noSeqElemB, isSeqB, hds]
    | strV sv =>
      rw [flattenList_cons_of_not_seq d ds (by rw [hfd]; rfl), hfd]
      simp [noSeqElemB, isSeqB, hds]
    | map es =>
      rw [flattenList_cons_of_not_seq d ds (by rw [hfd]; rfl), hfd]
      simp [noSeqElemB, isSeqB, hds]
    | ref lo p =>
      rw [flattenList_cons_of_not_seq d ds (by rw [hfd]; rfl), hfd]
      simp [noSeqElemB, isSeqB, hds]
    | refAll lo g =>
      rw [flattenList_cons_of_not_seq d ds (by rw [hfd]; rfl), hfd]
      simp [noSeqElemB, isSeqB, hds]
    | flatten xs =>
      rw [flattenList_cons_of_not_seq d ds (by rw [hfd]; rfl), hfd]
      simp [noSeqElemB, isSeqB, hds]
end

/-- A list whose elements are all non-sequence fixed points of the flatten
operator is left unchanged by it. -/
theorem flattenList_fixed : ∀ l : List Doc,
    (∀ e ∈ l, flattenSequences e = e ∧ isSeqB e = false) →
    flattenList l = l := by
  intro l h
  induction l with
  | nil => rfl
  | cons d ds ih =>
    have hd := h d (by simp)
    have hrest : ∀ e ∈ ds, flattenSequences e = e ∧ isSeqB e = false :=
      fun e he => h e (by simp [he])
    have hns : isSeqB (flattenSequences d) = false := by
      rw [hd.1]
      exact hd.2
    rw [flattenList_cons_of_not_seq d ds hns, hd.1, ih hrest]

/-- The flatten operator never returns a `Flatten` marker. -/
theorem flattenSequences_ne_flatten : ∀ (d : Doc) (xs : List Doc),
    flattenSequences d ≠ .flatten xs := by
  intro d xs
  cases d <;> simp [flattenSequences]

mutual
theorem flatten_idem : ∀ d : Doc,
    flattenSequences (flattenSequences d) = flattenSequences d ∧
    (∀ x, flattenSequences d = .seq x →
      ∀ e ∈ x, flattenSequences e = e ∧ isSeqB e = false) := by
  intro d
  cases d
  case seq items =>
    have hl := flattenList_idem items
    constructor
    · simp only [flattenSequences]
      rw [hl.1]
    · intro x hx e he
      simp only [flattenSequences] at hx
      obtain rfl : flattenList items = x := by simpa using hx
      exact hl.2 e he
  case flatten items =>
    have hl := flattenList_idem items
    constructor
    · simp only [flattenSequences]
      rw [hl.1]
    · intro x hx e he
      simp only [flattenSequences] at hx
      obtain rfl : flattenList items = x := by simpa using hx
      exact hl.2 e he
  case map es =>
    have he := flattenEntries_idem es
    constructor
    · simp only [flattenSequences]
      rw [he]
    · intro x hx
      simp [flattenSequences] at hx
  all_goals
    exact ⟨by simp [flattenSequences, flattenEntries], by intro x hx; simp [flattenSequences] at hx⟩

theorem flattenList_idem : ∀ items : List Doc,
    flattenList (flattenList items) = flattenList items ∧
    (∀ e ∈ flattenList items, flattenSequences e = e ∧ isSeqB e = false) := by
  intro items
  match items with
  | [] => exact ⟨rfl, by simp [flattenList]⟩
  | d :: ds =>
    have hds := flattenList_idem ds
    have hd := flatten_idem d
    cases hfd : flattenSequences d with
    | seq x =>
      have hx : ∀ e ∈ x, flattenSequences e = e ∧ isSeqB e = false :=
        hd.2 x hfd
      rw [flattenList_cons_of_seq d ds x hfd]
      constructor
      · rw [flattenList_append, flattenList_fixed x hx, hds.1]
      · intro e he
        rcases List.mem_append.mp he with h1 | h2
        · exact hx e h1
        · exact hds.2 e h2
    | null =>
      rw [flattenList_cons_of_not_seq d ds (by rw [hfd]; rfl), hfd]
      constructor
      · rw [flattenList_cons_of_not_seq _ _ (by simp [flattenSequences, isSeqB])]
        simp [flattenSequences, hds.1]
      · intro e he
        rcases List.mem_cons.mp he with h1 | h2
        · subst h1
          exact ⟨by simp [flattenSequences], by simp [isSeqB]⟩
        · exact hds.2 e h2
    | boolV bb =>
      rw [flattenList_cons_of_not_seq d ds (by rw [hfd]; rfl), hfd]
      constructor
      · rw [flattenList_cons_of_not_seq _ _ (by simp [flattenSequences, isSeqB])]
        simp [flattenSequences, hds.1]
      · intro e he
        rcases List.mem_cons.mp he with h1 | h2
        · subst h1
          exact ⟨by simp [flattenSequences], by simp [isSeqB]⟩
        · exact hds.2 e h2
    | numV n =>
      rw [flattenList_cons_of_not_seq d ds (by rw [hfd]; rfl), hfd]
      constructor
      · rw [flattenList_cons_of_not_seq _ _ (by simp [flattenSequences, isSeqB])]
        simp [flattenSequences, hds.1]
      · intro e he
        rcases List.mem_cons.mp he with h1 | h2
        · subst h1
          exact ⟨by simp [flattenSequences], by simp [isSeqB]⟩
        · exact hds.2 e h2
    | strV sv =>
      rw [flattenList_cons_of_not_seq d ds (by rw [hfd]; rfl), hfd]
      constructor
      · rw [flattenList_cons_of_not_seq _ _ (by simp [flattenSequences, isSeqB])]
        simp [flattenSequences, hds.1]
      · intro e he
        rcases List.mem_cons.mp he with h1 | h2
        · subst h1
          exact ⟨by simp [flattenSequences], by simp [isSeqB]⟩
        · exact hds.2 e h2
    | map es =>
      have hfix : flattenSequences (Doc.map es) = Doc.map es := by
        rw [← hfd, hd.1, hfd]
      rw [flattenList_cons_of_not_seq d ds (by rw [hfd]; rfl), hfd]
      constructor
      · rw [flattenList_cons_of_not_seq _ _ (by rw [hfix]; rfl), hfix, hds.1]
      · intro e he
        rcases List.mem_cons.mp he with h1 | h2
        · subst h1
          exact ⟨hfix, by simp [isSeqB]⟩
        · exact hds.2 e h2
    | ref lo p =>
      have hfix : flattenSequences (Doc.ref lo p) = Doc.map
          [("path", Doc.strV p), ("_location", Doc.strV lo)] := by
        simp [flattenSequences]
      rw [flattenList_cons_of_not_seq d ds (by rw [hfd]; rfl), hfd]
      constructor
      · rw [flattenList_cons_of_not_seq _ _ (by rw [hfix]; rfl), hfix]
        exfalso
        have := hd.1
        rw [hfd, hfix] at this
        simp at this
      · intro e he
        exfalso
        have := hd.1
        rw [hfd, hfix] at this
        simp at this
    | refAll lo g =>
      have hfix : flattenSequences (Doc.refAll lo g) = Doc.map
          [("glob", Doc.strV g), ("_location", Doc.strV lo)] := by
        simp [flattenSequences]
      rw [flattenList_cons_of_not_seq d ds (by rw [hfd]; rfl), hfd]
      constructor
      · exfalso
        have := hd.1
        rw [hfd, hfix] at this
        simp at this
      · intro e he
        exfalso
        have := hd.1
        rw [hfd, hfix] at this
        simp at this
    | flatten xs =>
      exact absurd hfd (flattenSequences_ne_flatten d xs)

theorem flattenEntries_idem : ∀ es : List (String × Doc),
    flattenEntries (flattenEntries es) = flattenEntries es := by
  intro es
  match es with
  | [] => rfl
  | (k, v) :: rest =>
    simp only [flattenEntries]
    rw [(flatten_idem v).1, flattenEntries_idem rest]
end

/-- Whether a document is a `Flatten` marker. -/
def isFlattenB : Doc → Bool
  | .flatten _ => true
  | _ => false

theorem flattenSequences_not_seq (d : Doc) (hs : isSeqB d = false)
    (hf : isFlattenB d = false) : isSeqB (flattenSequences d) = false := by
  cases d <;> simp [isSeqB, isFlattenB, flattenSequences] at hs hf ⊢

theorem flattenList_singleton_seq (l : List Doc) :
    flattenList [Doc.seq l] = flattenList l := by
  rw [flattenList_cons_of_seq (Doc.seq l) [] (flattenList l)
    (by simp [flattenSequences])]
  simp [flattenList]

theorem flattenList_nesting (a b c : Doc) :
    flattenList [a, Doc.seq [b, Doc.seq [c]]] = flattenList [a, b, c] := by
  rw [show [a, Doc.seq [b, Doc.seq [c]]] = [a] ++ [Doc.seq [b, Doc.seq [c]]] from rfl,
    show ([a, b, c] : List Doc) = [a] ++ ([b] ++ [c]) from rfl,
    flattenList_append, flattenList_append, flattenList_append,
    flattenList_singleton_seq,
    show ([b, Doc.seq [c]] : List Doc) = [b] ++ [Doc.seq [c]] from rfl,
    flattenList_append, flattenList_singleton_seq]

theorem isScalarB_fixed (d : Doc) (h : isScalarB d = true) :
    flattenSequences d = d ∧ isSeqB d = false := by
  cases d <;> simp [isScalarB] at h ⊢ <;> simp [flattenSequences, isSeqB]

theorem flattenList_scalars (l : List Doc)
    (h : ∀ e ∈ l, isScalarB e = true) : flattenList l = l :=
  flattenList_fixed l (fun e he => isScalarB_fixed e (h e he))

theorem flattenList_passthrough (pre : List Doc) (d : Doc) (post : List Doc)
    (hs : isSeqB d = false) (hf : isFlattenB d = false) :
    flattenList (pre ++ d :: post)
      = flattenList pre ++ flattenSequences d :: flattenList post := by
  rw [flattenList_append,
    flattenList_cons_of_not_seq d post (flattenSequences_not_seq d hs hf)]

/-! ## The Merge operator, modelled from the spec

The resolver revision handling the `!merge` tag is not among the sources
under `src/` (only the `Merge` marker class, the README and the tests speak
of it), so the operator itself is modelled from the spec: flatten the
resolved item sequence with the Flatten Operator until no element is a
sequence, validate that every remaining element is a Mapping (failing with
the offending position otherwise), and fold the mappings left to right with
last-write-wins per key and shallow replacement. -/

mutual
/-- Modelled from the spec: the splice view of one element under the Flatten
Operator of §4.4 — a sequence is recursively flattened and spliced, any
other element passes through unchanged. -/
def specFlattenDoc : Doc → List Doc
  | .seq l => specFlatten l
  | d => [d]

/-- Modelled from the spec: the Flatten Operator of §4.4 applied to an item
sequence. -/
def specFlatten : List Doc → List Doc
  | [] => []
  | d :: rest => specFlattenDoc d ++ specFlatten rest
end

/-- Whether a document is a Mapping node. -/
def isMapB : Doc → Bool
  | .map _ => true
  | _ => false

/-- Position of the first element that is not a Mapping. -/
def firstNonMapIdx : List Doc → Option Nat
  | [] => none
  | d :: ds =>
    if isMapB d then (firstNonMapIdx ds).map (· + 1) else some 0

/-- JavaScript object update `result[key] = value`: replace the value in
place when the key is present, append otherwise. -/
def jsUpsert : List (String × Doc) → String → Doc → List (String × Doc)
  | [], k, v => [(k, v)]
  | (k', v') :: rest, k, v =>
    if k' = k then (k, v) :: rest else (k', v') :: jsUpsert rest k v

/-- Fold one mapping's entries into the accumulator, left to right. -/
def upsertAll : List (String × Doc) → List (String × Doc) → List (String × Doc)
  | acc, [] => acc
  | acc, (k, v) :: rest => upsertAll (jsUpsert acc k v) rest

/-- Fold a (validated) sequence of mappings left to right. -/
def mergeDocs : List (String × Doc) → List Doc → List (String × Doc)
  | acc, [] => acc
  | acc, .map es :: rest => mergeDocs (upsertAll acc es) rest
  | acc, _ :: rest => mergeDocs acc rest

/-- Modelled from the spec: resolving a Merge marker whose items have been
recursively resolved — flatten the items, validate every element is a
Mapping (`MergeTypeError` carrying the offending position otherwise), then
merge with last-write-wins. -/
def applyMerge (items : List Doc) : Except Nat (List (String × Doc)) :=
  let flat := specFlatten items
  match firstNonMapIdx flat with
  | some i => .error i
  | none => .ok (mergeDocs [] flat)

/-- First-match lookup in a mapping's entry list. -/
def lookupKey : List (String × Doc) → String → Option Doc
  | [], _ => none
  | (k', v) :: rest, k => if k' = k then some v else lookupKey rest k

theorem lookupKey_append (a b : List (String × Doc)) (k : String) :
    lookupKey (a ++ b) k = (lookupKey a k).or (lookupKey b k) := by
  induction a with
  | nil => simp [lookupKey]
  | cons kv rest ih =>
    obtain ⟨k', v⟩ := kv
    by_cases h : k' = k <;> simp [lookupKey, h, ih]

theorem jsUpsert_lookup_same (m : List (String × Doc)) (k : String) (v : Doc) :
    lookupKey (jsUpsert m k v) k = some v := by
  induction m with
  | nil => simp [jsUpsert, lookupKey]
  | cons kv rest ih =>
    obtain ⟨k', v'⟩ := kv
    by_cases h : k' = k <;> simp [jsUpsert, h, lookupKey, ih]

theorem jsUpsert_lookup_other (m : List (String × Doc)) (k k' : String)
    (v : Doc) (h : k' ≠ k) :
    lookupKey (jsUpsert m k v) k' = lookupKey m k' := by
  have hne : ¬ k = k' := fun hk => h hk.symm
  induction m with
  | nil =>
    simp only [jsUpsert, lookupKey]
    rw [if_neg hne]
  | cons kv rest ih =>
    obtain ⟨k'', v''⟩ := kv
    by_cases hk : k'' = k
    · subst hk
      simp only [jsUpsert, if_pos rfl, lookupKey]
      rw [if_neg hne, if_neg hne]
    · simp only [jsUpsert, if_neg hk, lookupKey]
      by_cases hk2 : k'' = k'
      · rw [if_pos hk2, if_pos hk2]
      · rw [if_neg hk2, if_neg hk2, ih]

theorem upsertAll_lookup (es acc : List (String × Doc)) (k : String) :
    lookupKey (upsertAll acc es) k
      = (lookupKey es.reverse k).or (lookupKey acc k) := by
  induction es generalizing acc with
  | nil => simp [upsertAll, lookupKey]
  | cons kv rest ih =>
    obtain ⟨k', v⟩ := kv
    simp only [upsertAll, List.reverse_cons, lookupKey_append, ih]
    by_cases h : k' = k
    · subst h
      simp only [lookupKey, if_pos rfl, jsUpsert_lookup_same]
      cases lookupKey rest.reverse k' <;> simp
    · simp only [lookupKey, if_neg h,
        jsUpsert_lookup_other acc k' k v (fun hk => h hk.symm)]
      cases lookupKey rest.reverse k <;> simp

theorem mergeDocs_lookup (ms : List (List (String × Doc)))
    (acc : List (String × Doc)) (k : String) :
    lookupKey (mergeDocs acc (ms.map Doc.map)) k
      = (lookupKey (ms.flatMap id).reverse k).or (lookupKey acc k) := by
  induction ms generalizing acc with
  | nil => simp [mergeDocs, lookupKey]
  | cons es rest ih =>
    simp only [List.map_cons, mergeDocs, ih, List.flatMap_cons, id,
      List.reverse_append, lookupKey_append, upsertAll_lookup]
    cases lookupKey (rest.flatMap id).reverse k <;>
      cases lookupKey es.reverse k <;> simp

theorem specFlattenDoc_not_seq (d : Doc) (h : isSeqB d = false) :
    specFlattenDoc d = [d] := by
  cases d <;> simp_all [isSeqB, specFlattenDoc]

theorem specFlatten_prefix_maps : ∀ (pre l : List Doc),
    (∀ e ∈ pre, isMapB e = true) →
    specFlatten (pre ++ l) = pre ++ specFlatten l := by
  intro pre l h
  induction pre with
  | nil => rfl
  | cons e rest ih =>
    have he : isMapB e = true := h e (by simp)
    have hns : isSeqB e = false := by
      cases e <;> simp_all [isMapB, isSeqB]
    simp only [List.cons_append, specFlatten, specFlattenDoc_not_seq e hns]
    rw [show specFlatten (rest.append l) = rest ++ specFlatten l from
      ih (fun x hx => h x (by simp [hx]))]
    simp

theorem firstNonMapIdx_at : ∀ (pre : List Doc) (d : Doc) (l : List Doc),
    (∀ e ∈ pre, isMapB e = true) → isMapB d = false →
    firstNonMapIdx (pre ++ d :: l) = some pre.length := by
  intro pre d l hpre hd
  induction pre with
  | nil => simp [firstNonMapIdx, hd]
  | cons e rest ih =>
    have he : isMapB e = true := hpre e (by simp)
    simp [firstNonMapIdx, he, ih (fun x hx => hpre x (by simp [hx]))]

theorem applyMerge_offender (pre : List Doc) (d : Doc) (post : List Doc)
    (hpre : ∀ e ∈ pre, isMapB e = true) (hd : isMapB d = false)
    (hds : isSeqB d = false) :
    applyMerge (pre ++ d :: post) = .error pre.length := by
  have h1 : specFlatten (pre ++ d :: post)
      = pre ++ d :: specFlatten post := by
    rw [specFlatten_prefix_maps pre (d :: post) hpre]
    simp only [specFlatten, specFlattenDoc_not_seq d hds]
    simp
  simp [applyMerge, h1, firstNonMapIdx_at pre d (specFlatten post) hpre hd]

theorem specFlatten_maps (ms : List (List (String × Doc))) :
    specFlatten (ms.map Doc.map) = ms.map Doc.map := by
  induction ms with
  | nil => rfl
  | cons es rest ih =>
    simp only [List.map_cons, specFlatten,
      specFlattenDoc_not_seq (Doc.map es) (by rfl), ih]
    simp

theorem firstNonMapIdx_maps (ms : List (List (String × Doc))) :
    firstNonMapIdx (ms.map Doc.map) = none := by
  induction ms with
  | nil => rfl
  | cons es rest ih => simp [firstNonMapIdx, isMapB, ih]

theorem applyMerge_maps (ms : List (List (String × Doc))) :
    applyMerge (ms.map Doc.map) = .ok (mergeDocs [] (ms.map Doc.map)) := by
  simp [applyMerge, specFlatten_maps, firstNonMapIdx_maps]

/-! ## The reference graph and what success implies about it -/

mutual
/-- Absolute target paths of the markers occurring in a (stamped) document:
the resolved target of each `Reference` and the filtered, sorted match list
of each `ReferenceAll`. -/
def docTargetsOf (M : Model) (allow : List String) : Doc → List String
  | .ref loc rel => [resolvePath (dirname loc) rel]
  | .refAll loc g => multiMatches M allow (resolvePath (dirname loc) g)
  | .seq items => docTargetsList M allow items
  | .flatten items => docTargetsList M allow items
  | .map es => docTargetsEntries M allow es
  | _ => []

/-- Targets of a list of documents. -/
def docTargetsList (M : Model) (allow : List String) : List Doc → List String
  | [] => []
  | d :: ds => docTargetsOf M allow d ++ docTargetsList M allow ds

/-- Targets of mapping entries. -/
def docTargetsEntries (M : Model) (allow : List String) :
    List (String × Doc) → List String
  | [] => []
  | (_, v) :: es => docTargetsOf M allow v ++ docTargetsEntries M allow es
end

/-- Files referenced by a file of the model (the edges of the reference
graph out of `p`). -/
def fileTargets (M : Model) (allow : List String) (p : String) : List String :=
  match lookupFile M.files p with
  | none => []
  | some raw => docTargetsOf M allow (stampDoc p raw)

/-- The reference-graph edge relation: `p` references `q`. -/
def edgeOf (M : Model) (allow : List String) (p q : String) : Prop :=
  q ∈ fileTargets M allow p

instance (M : Model) (allow : List String) (p q : String) :
    Decidable (edgeOf M allow p q) :=
  inferInstanceAs (Decidable (q ∈ fileTargets M allow p))

/-- What a successful resolution guarantees about one referenced target:
it was not on the ancestor stack, and its file resolves successfully with
the target pushed onto the stack. -/
def TargetOK (M : Model) (allow : List String) (V : List String)
    (q : String) : Prop :=
  memStr q V = false ∧ ∃ raw f r, lookupFile M.files q = some raw ∧
    (resolveNode M allow f (stampDoc q raw) (V ++ [q])).1 = .ok r

theorem resolve_targets (M : Model) (allow : List String) : ∀ f : Nat,
    (∀ d V r V', resolveNode M allow f d V = (.ok r, V') →
      ∀ q ∈ docTargetsOf M allow d, TargetOK M allow V q) ∧
    (∀ l V rs V', resolveList M allow f l V = (.ok rs, V') →
      ∀ q ∈ docTargetsList M allow l, TargetOK M allow V q) ∧
    (∀ es V rs V', resolveEntries M allow f es V = (.ok rs, V') →
      ∀ q ∈ docTargetsEntries M allow es, TargetOK M allow V q) ∧
    (∀ ps V rs V', resolveFiles M allow f ps V = (.ok rs, V') →
      ∀ q ∈ ps, TargetOK M allow V q) := by
  intro f
  induction f with
  | zero =>
    refine ⟨?_, ?_, ?_, ?_⟩ <;> intro a V r V' h <;>
      simp [resolveNode, resolveList, resolveEntries, resolveFiles] at h
  | succ f ih =>
    obtain ⟨ihN, ihL, ihE, ihF⟩ := ih
    refine ⟨?_, ?_, ?_, ?_⟩
    · intro d V r V' h q hq
      cases d <;> simp only [resolveNode] at h <;>
        simp only [docTargetsOf] at hq
      case ref loc rel =>
        obtain rfl : q = resolvePath (dirname loc) rel := by simpa using hq
        split at h
        next hloc => exact absurd h (by simp)
        next hloc =>
          split at h
          next hguard => exact absurd h (by simp)
          next hguard =>
            split at h
            next hmem => exact absurd h (by simp)
            next hmem =>
              split at h
              next hlook => exact absurd h (by simp)
              next raw hlook =>
                split at h
                next r2 V2 heq =>
                  refine ⟨by simpa using hmem, raw, f, r2, hlook, ?_⟩
                  rw [heq]
                next e V2 heq => exact absurd h (by simp)
      case refAll loc g =>
        split at h
        next hloc => exact absurd h (by simp)
        next hloc =>
          split at h
          next hempty => exact absurd h (by simp)
          next hempty =>
            split at h
            next rs V1 heq =>
              exact ihF _ _ _ _ heq q (by simpa [multiMatches] using hq)
            next e V1 heq => exact absurd h (by simp)
      case seq items =>
        split at h
        next rs V1 heq => exact ihL _ _ _ _ heq q hq
        next e V1 heq => exact absurd h (by simp)
      case map es =>
        split at h
        next rs V1 heq => exact ihE _ _ _ _ heq q hq
        next e V1 heq => exact absurd h (by simp)
      case flatten items =>
        split at h
        next rs V1 heq => exact ihL _ _ _ _ heq q hq
        next e V1 heq => exact absurd h (by simp)
      all_goals simp at hq
    · intro l V rs V' h q hq
      cases l with
      | nil => simp [docTargetsList] at hq
      | cons d ds =>
        simp only [resolveList] at h
        split at h
        next r1 V1 heq1 =>
          have hV1 : V1 = V := (resolve_restore M allow f).1 _ _ _ _ heq1
          subst hV1
          split at h
          next rs2 V2 heq2 =>
            simp only [docTargetsList] at hq
            rcases List.mem_append.mp hq with h1 | h2
            · exact ihN _ _ _ _ heq1 q h1
            · exact ihL _ _ _ _ heq2 q h2
          next e V2 heq2 => exact absurd h (by simp)
        next e V1 heq1 => exact absurd h (by simp)
    · intro es V rs V' h q hq
      cases es with
      | nil => simp [docTargetsEntries] at hq
      | cons kv rest =>
        obtain ⟨k, v⟩ := kv
        simp only [resolveEntries] at h
        split at h
        next r1 V1 heq1 =>
          have hV1 : V1 = V := (resolve_restore M allow f).1 _ _ _ _ heq1
          subst hV1
          split at h
          next rs2 V2 heq2 =>
            simp only [docTargetsEntries] at hq
            rcases List.mem_append.mp hq with h1 | h2
            · exact ihN _ _ _ _ heq1 q h1
            · exact ihE _ _ _ _ heq2 q h2
          next e V2 heq2 => exact absurd h (by simp)
        next e V1 heq1 => exact absurd h (by simp)
    · intro ps V rs V' h q hq
      cases ps with
      | nil => simp at hq
      | cons p ps' =>
        simp only [resolveFiles] at h
        split at h
        next hmem => exact absurd h (by simp)
        next hmem =>
          split at h
          next hlook => exact absurd h (by simp)
          next raw hlook =>
            split at h
            next e V2 heq => exact absurd h (by simp)
            next r1 V2 heq1 =>
              split at h
              next rs2 V4 heq2 =>
                rcases List.mem_cons.mp hq with h1 | h2
                · subst h1
                  refine ⟨by simpa using hmem, raw, f, r1, hlook, ?_⟩
                  rw [heq1]
                · have hV2 : V2 = V ++ [p] :=
                    (resolve_restore M allow f).1 _ _ _ _ heq1
                  have herase : eraseStr V2 p = V := by
                    rw [hV2]
                    exact eraseStr_append_self V p (by simpa using hmem)
                  rw [herase] at heq2
                  exact ihF _ _ _ _ heq2 q h2
              next e V4 heq2 => exact absurd h (by simp)

/-- Following a chain of reference-graph edges from a successfully resolving
file extends the ancestor stack by exactly the chain and still succeeds at
its end. -/
theorem chain_success (M : Model) (allow : List String) :
    ∀ (l : List String) (a : String) (V : List String),
    (∃ rawa fa ra, lookupFile M.files a = some rawa ∧
      (resolveNode M allow fa (stampDoc a rawa) V).1 = .ok ra) →
    List.Chain (edgeOf M allow) a l →
    (∃ rawb fb rb, lookupFile M.files (l.getLastD a) = some rawb ∧
      (resolveNode M allow fb (stampDoc (l.getLastD a) rawb) (V ++ l)).1
        = .ok rb) := by
  intro l
  induction l with
  | nil =>
    intro a V hsucc _
    simpa using hsucc
  | cons b l' ih =>
    intro a V hsucc hch
    obtain ⟨rawa, fa, ra, hlooka, hoka⟩ := hsucc
    rcases List.chain_cons.mp hch with ⟨hedge, hch'⟩
    have hqmem : b ∈ docTargetsOf M allow (stampDoc a rawa) := by
      have hb : b ∈ fileTargets M allow a := hedge
      unfold fileTargets at hb
      rw [hlooka] at hb
      exact hb
    rcases hpair : resolveNode M allow fa (stampDoc a rawa) V with ⟨resa, Va⟩
    rw [hpair] at hoka
    have hresa : resa = .ok ra := hoka
    subst hresa
    have htgt := (resolve_targets M allow fa).1 _ _ _ _ hpair b hqmem
    obtain ⟨hmemb, rawb, fb, rb, hlookb, hokb⟩ := htgt
    have hnext := ih b (V ++ [b]) ⟨rawb, fb, rb, hlookb, hokb⟩ hch'
    rw [List.append_assoc, List.singleton_append] at hnext
    rw [List.getLastD_cons a b l']
    exact hnext

/-- A file on a reference cycle through itself never resolves successfully:
unrolling the cycle would require the file to be absent from an ancestor
stack that already contains it. -/
theorem cycle_no_success (M : Model) (allow : List String) (entry : String)
    (l : List String)
    (hch : List.Chain (edgeOf M allow) entry (l ++ [entry]))
    (raw0 : Doc) (hlook : lookupFile M.files entry = some raw0)
    (f : Nat) (r : Doc)
    (hok : (resolveNode M allow f (stampDoc entry raw0) []).1 = .ok r) :
    False := by
  have hfin := chain_success M allow (l ++ [entry]) entry []
    ⟨raw0, f, r, hlook, hok⟩ hch
  have hlast : (l ++ [entry]).getLastD entry = entry := by
    simp [List.getLastD_concat]
  rw [hlast] at hfin
  obtain ⟨rawb, fb, rb, hlookb, hokb⟩ := hfin
  obtain ⟨p1, rest, hcons⟩ : ∃ p1 rest, l ++ [entry] = p1 :: rest := by
    cases hl : l ++ [entry] with
    | nil => exact absurd hl (by simp)
    | cons x xs => exact ⟨x, xs, rfl⟩
  have hedge1 : edgeOf M allow entry p1 := by
    rw [hcons] at hch
    exact (List.chain_cons.mp hch).1
  have hqmem : p1 ∈ docTargetsOf M allow (stampDoc entry rawb) := by
    have hb : p1 ∈ fileTargets M allow entry := hedge1
    unfold fileTargets at hb
    rw [hlookb] at hb
    exact hb
  rcases hpair : resolveNode M allow fb (stampDoc entry rawb)
      ([] ++ (l ++ [entry])) with ⟨resb, Vb⟩
  rw [hpair] at hokb
  have hresb : resb = .ok rb := hokb
  subst hresb
  have htgt := (resolve_targets M allow fb).1 _ _ _ _ hpair p1 hqmem
  have hp1mem : p1 ∈ ([] : List String) ++ (l ++ [entry]) := by
    rw [hcons]
    simp
  have hfalse := htgt.1
  have htrue := (memStr_iff_mem (([] : List String) ++ (l ++ [entry])) p1).mpr hp1mem
  rw [hfalse] at htrue
  exact absurd htrue (by simp)

/-! ## Error classification over well-formed models -/

mutual
/-- Whether every marker in a (stamped) document can be resolved without a
non-cycle error: locations are stamped, single-reference targets are
admitted by the guard and present in the model, and multi-reference match
lists are non-empty with every match present in the model. -/
def docOkB (M : Model) (allow : List String) : Doc → Bool
  | .ref loc rel =>
    decide (¬ loc = "")
      && (allow.isEmpty || codeAllowedB allow (resolvePath (dirname loc) rel))
      && (lookupFile M.files (resolvePath (dirname loc) rel)).isSome
  | .refAll loc g =>
    decide (¬ loc = "")
      && (!(filterPipeline allow (M.glob (resolvePath (dirname loc) g))).isEmpty)
      && (filterPipeline allow (M.glob (resolvePath (dirname loc) g))).all
          (fun p => (lookupFile M.files p).isSome)
  | .seq items => docOkListB M allow items
  | .flatten items => docOkListB M allow items
  | .map es => docOkEntriesB M allow es
  | _ => true

/-- Marker resolvability over a list of documents. -/
def docOkListB (M : Model) (allow : List String) : List Doc → Bool
  | [] => true
  | d :: ds => docOkB M allow d && docOkListB M allow ds

/-- Marker resolvability over mapping entries. -/
def docOkEntriesB (M : Model) (allow : List String) :
    List (String × Doc) → Bool
  | [] => true
  | (_, v) :: es => docOkB M allow v && docOkEntriesB M allow es
end

/-- Whether every file of the model parses to a document whose markers can
all be resolved (after stamping that file's path). -/
def goodModelB (M : Model) (allow : List String) : Bool :=
  M.files.all (fun kv => docOkB M allow (stampDoc kv.1 kv.2))

theorem lookupFile_mem : ∀ (files : List (String × Doc)) t raw,
    lookupFile files t = some raw → (t, raw) ∈ files := by
  intro files t raw h
  induction files with
  | nil => simp [lookupFile] at h
  | cons kv rest ih =>
    obtain ⟨k, v⟩ := kv
    by_cases hk : k = t
    · subst hk
      have h2 : v = raw := by simpa [lookupFile] using h
      subst h2
      simp
    · simp only [lookupFile, if_neg hk] at h
      simp [ih h]

theorem goodModel_lookup (M : Model) (allow : List String)
    (hg : goodModelB M allow = true) (t : String) (raw : Doc)
    (h : lookupFile M.files t = some raw) :
    docOkB M allow (stampDoc t raw) = true := by
  have hmem := lookupFile_mem M.files t raw h
  exact List.all_eq_true.mp hg (t, raw) hmem

theorem mem_sortStrings (l : List String) (a : String) :
    a ∈ sortStrings l ↔ a ∈ l :=
  (List.perm_insertionSort strLeP l).mem_iff

theorem resolve_errors (M : Model) (allow : List String)
    (hg : goodModelB M allow = true) : ∀ f : Nat,
    (∀ d V e V', docOkB M allow d = true →
      resolveNode M allow f d V = (.error e, V') →
      e = .outOfFuel ∨ ∃ t, e = .circular t) ∧
    (∀ l V e V', docOkListB M allow l = true →
      resolveList M allow f l V = (.error e, V') →
      e = .outOfFuel ∨ ∃ t, e = .circular t) ∧
    (∀ es V e V', docOkEntriesB M allow es = true →
      resolveEntries M allow f es V = (.error e, V') →
      e = .outOfFuel ∨ ∃ t, e = .circular t) ∧
    (∀ ps V e V', ps.all (fun p => (lookupFile M.files p).isSome) = true →
      resolveFiles M allow f ps V = (.error e, V') →
      e = .outOfFuel ∨ ∃ t, e = .circular t) := by
  intro f
  induction f with
  | zero =>
    refine ⟨?_, ?_, ?_, ?_⟩ <;> intro a V e V' hok h <;>
      simp [resolveNode, resolveList, resolveEntries, resolveFiles] at h <;>
      simp [h.1]
  | succ f ih =>
    obtain ⟨ihN, ihL, ihE, ihF⟩ := ih
    refine ⟨?_, ?_, ?_, ?_⟩
    · intro d V e V' hok h
      cases d <;> simp only [resolveNode] at h <;>
        simp only [docOkB, Bool.and_eq_true, Bool.or_eq_true,
          decide_eq_true_eq] at hok
      case ref loc rel =>
        split at h
        next hloc => exact absurd hloc hok.1.1
        next hloc =>
          split at h
          next hguard =>
            rcases hok.1.2 with hal | hca
            · exact absurd (by simpa using hal) hguard.1
            · exact absurd hca (by simp [hguard.2])
          next hguard =>
            split at h
            next hmem =>
              obtain ⟨he, hV⟩ := by simpa using h
              exact Or.inr ⟨_, he.symm⟩
            next hmem =>
              split at h
              next hlook =>
                rw [hlook] at hok
                simp at hok
              next raw hlook =>
                split at h
                next r2 V2 heq => exact absurd h (by simp)
                next e2 V2 heq =>
                  obtain ⟨he, hV⟩ := by simpa using h
                  subst he
                  exact ihN _ _ _ _ (goodModel_lookup M allow hg _ raw hlook) heq
      case refAll loc g =>
        split at h
        next hloc => exact absurd hloc hok.1.1
        next hloc =>
          split at h
          next hempty => exact absurd hempty (by simpa using hok.1.2)
          next hempty =>
            split at h
            next rs V1 heq => exact absurd h (by simp)
            next e1 V1 heq =>
              obtain ⟨he, hV⟩ := by simpa using h
              subst he
              refine ihF _ _ _ _ ?_ heq
              rw [List.all_eq_true] at hok ⊢
              intro p hp
              exact hok.2 p ((mem_sortStrings _ p).mp hp)
      case seq items =>
        split at h
        next rs V1 heq => exact absurd h (by simp)
        next e1 V1 heq =>
          obtain ⟨he, hV⟩ := by simpa using h
          subst he
          exact ihL _ _ _ _ hok heq
      case map es =>
        split at h
        next rs V1 heq => exact absurd h (by simp)
        next e1 V1 heq =>
          obtain ⟨he, hV⟩ := by simpa using h
          subst he
          exact ihE _ _ _ _ hok heq
      case flatten items =>
        split at h
        next rs V1 heq => exact absurd h (by simp)
        next e1 V1 heq =>
          obtain ⟨he, hV⟩ := by simpa using h
          subst he
          exact ihL _ _ _ _ hok heq
      all_goals exact absurd h (by simp)
    · intro l V e V' hok h
      cases l with
      | nil => exact absurd h (by simp [resolveList])
      | cons d ds =>
        simp only [docOkListB, Bool.and_eq_true] at hok
        simp only [resolveList] at h
        split at h
        next r1 V1 heq1 =>
          split at h
          next rs V2 heq2 => exact absurd h (by simp)
          next e1 V2 heq2 =>
            obtain ⟨he, hV⟩ := by simpa using h
            subst he
            exact ihL _ _ _ _ hok.2 heq2
        next e1 V1 heq1 =>
          obtain ⟨he, hV⟩ := by simpa using h
          subst he
          exact ihN _ _ _ _ hok.1 heq1
    · intro es V e V' hok h
      cases es with
      | nil => exact absurd h (by simp [resolveEntries])
      | cons kv rest =>
        obtain ⟨k, v⟩ := kv
        simp only [docOkEntriesB, Bool.and_eq_true] at hok
        simp only [resolveEntries] at h
        split at h
        next r1 V1 heq1 =>
          split at h
          next rs V2 heq2 => exact absurd h (by simp)
          next e1 V2 heq2 =>
            obtain ⟨he, hV⟩ := by simpa using h
            subst he
            exact ihE _ _ _ _ hok.2 heq2
        next e1 V1 heq1 =>
          obtain ⟨he, hV⟩ := by simpa using h
          subst he
          exact ihN _ _ _ _ hok.1 heq1
    · intro ps V e V' hok h
      cases ps with
      | nil => exact absurd h (by simp [resolveFiles])
      | cons p ps' =>
        simp only [List.all_cons, Bool.and_eq_true] at hok
        simp only [resolveFiles] at h
        split at h
        next hmem =>
          obtain ⟨he, hV⟩ := by simpa using h
          exact Or.inr ⟨_, he.symm⟩
        next hmem =>
          split at h
          next hlook =>
            rw [hlook] at hok
            simp at hok
          next raw hlook =>
            split at h
            next e1 V2 heq =>
              obtain ⟨he, hV⟩ := by simpa using h
              subst he
              exact ihN _ _ _ _ (goodModel_lookup M allow hg _ raw hlook) heq
            next r1 V2 heq1 =>
              split at h
              next rs V4 heq2 => exact absurd h (by simp)
              next e1 V4 heq2 =>
                obtain ⟨he, hV⟩ := by simpa using h
                subst he
                exact ihF _ _ _ _ hok.2 heq2

/-! ## Sorting facts and glob-collaborator extensionality -/

theorem sortStrings_sorted (l : List String) :
    List.Sorted strLeP (sortStrings l) :=
  List.sorted_insertionSort strLeP l

theorem sortStrings_perm (l : List String) : (sortStrings l).Perm l :=
  List.perm_insertionSort strLeP l

theorem sortStrings_eq_of_perm {l₁ l₂ : List String} (h : l₁.Perm l₂) :
    sortStrings l₁ = sortStrings l₂ :=
  List.eq_of_perm_of_sorted
    ((sortStrings_perm l₁).trans (h.trans (sortStrings_perm l₂).symm))
    (sortStrings_sorted l₁) (sortStrings_sorted l₂)

theorem perm_isEmpty {l₁ l₂ : List String} (h : l₁.Perm l₂) :
    l₁.isEmpty = l₂.isEmpty := by
  cases l₁ with
  | nil =>
    have := h.nil_eq
    simp [← this]
  | cons x xs =>
    cases l₂ with
    | nil => exact absurd h.symm.nil_eq (by simp)
    | cons y ys => simp

theorem filterPipeline_perm (allow : List String) {l₁ l₂ : List String}
    (h : l₁.Perm l₂) :
    (filterPipeline allow l₁).Perm (filterPipeline allow l₂) := by
  unfold filterPipeline
  by_cases he : allow.isEmpty
  · simp only [he, if_true]
    exact h.filter _
  · simp only [he, if_false]
    exact (h.filter _).filter _

theorem resolve_glob_ext (M₁ M₂ : Model) (allow : List String)
    (hfiles : M₁.files = M₂.files)
    (hglob : ∀ q, (M₁.glob q).Perm (M₂.glob q)) : ∀ f : Nat,
    (∀ d V, resolveNode M₁ allow f d V = resolveNode M₂ allow f d V) ∧
    (∀ l V, resolveList M₁ allow f l V = resolveList M₂ allow f l V) ∧
    (∀ es V, resolveEntries M₁ allow f es V = resolveEntries M₂ allow f es V) ∧
    (∀ ps V, resolveFiles M₁ allow f ps V = resolveFiles M₂ allow f ps V) := by
  intro f
  induction f with
  | zero =>
    refine ⟨?_, ?_, ?_, ?_⟩ <;> intro a V <;>
      simp [resolveNode, resolveList, resolveEntries, resolveFiles]
  | succ f ih =>
    obtain ⟨ihN, ihL, ihE, ihF⟩ := ih
    refine ⟨?_, ?_, ?_, ?_⟩
    · intro d V
      cases d <;> simp only [resolveNode]
      case ref loc rel => simp only [hfiles, ihN]
      case refAll loc g =>
        have hp := filterPipeline_perm allow (hglob (resolvePath (dirname loc) g))
        have hemp := perm_isEmpty hp
        have hsort := sortStrings_eq_of_perm hp
        simp only [hemp, hsort, ihF]
      case seq items => simp only [ihL]
      case map es => simp only [ihE]
      case flatten items => simp only [ihL]
    · intro l V
      cases l with
      | nil => simp [resolveList]
      | cons d ds => simp only [resolveList, ihN, ihL]
    · intro es V
      cases es with
      | nil => simp [resolveEntries]
      | cons kv rest =>
        obtain ⟨k, v⟩ := kv
        simp only [resolveEntries, ihN, ihE]
    · intro ps V
      cases ps with
      | nil => simp [resolveFiles]
      | cons p ps' => simp only [resolveFiles, hfiles, ihN, ihF]

/-- Characterization of a successful `MultiReference` per-match loop: one
resolved tree per listed file, in order, each resolved against the loop's
entry ancestor stack with its own path pushed. -/
theorem resolveFiles_forall2 (M : Model) (allow : List String) :
    ∀ (f : Nat) (ps V : List String) rs V',
    resolveFiles M allow f ps V = (.ok rs, V') →
    List.Forall₂ (fun p r => ∃ raw f2, lookupFile M.files p = some raw ∧
      (resolveNode M allow f2 (stampDoc p raw) (V ++ [p])).1 = .ok r) ps rs := by
  intro f
  induction f with
  | zero =>
    intro ps V rs V' h
    simp [resolveFiles] at h
  | succ f ih =>
    intro ps V rs V' h
    cases ps with
    | nil =>
      simp only [resolveFiles] at h
      obtain ⟨hr, hV⟩ := by simpa using h
      subst hr
      exact List.Forall₂.nil
    | cons p ps' =>
      simp only [resolveFiles] at h
      split at h
      next hmem => exact absurd h (by simp)
      next hmem =>
        split at h
        next hlook => exact absurd h (by simp)
        next raw hlook =>
          split at h
          next e V2 heq => exact absurd h (by simp)
          next r1 V2 heq1 =>
            split at h
            next rs2 V4 heq2 =>
              obtain ⟨hr, hV⟩ := by simpa using h
              subst hr
              have hV2 : V2 = V ++ [p] :=
                (resolve_restore M allow f).1 _ _ _ _ heq1
              have herase : eraseStr V2 p = V := by
                rw [hV2]
                exact eraseStr_append_self V p (by simpa using hmem)
              rw [herase] at heq2
              refine List.Forall₂.cons ⟨raw, f, hlook, ?_⟩ (ih _ _ _ _ heq2)
              rw [heq1]
            next e V4 heq2 => exact absurd h (by simp)

/-! ## An empty allow-list never produces a path-not-allowed error -/

theorem resolve_no_pathNotAllowed (M : Model) : ∀ f : Nat,
    (∀ d V e V', resolveNode M [] f d V = (.error e, V') →
      ∀ t, e ≠ .pathNotAllowed t) ∧
    (∀ l V e V', resolveList M [] f l V = (.error e, V') →
      ∀ t, e ≠ .pathNotAllowed t) ∧
    (∀ es V e V', resolveEntries M [] f es V = (.error e, V') →
      ∀ t, e ≠ .pathNotAllowed t) ∧
    (∀ ps V e V', resolveFiles M [] f ps V = (.error e, V') →
      ∀ t, e ≠ .pathNotAllowed t) := by
  intro f
  induction f with
  | zero =>
    refine ⟨?_, ?_, ?_, ?_⟩ <;> intro a V e V' h t <;>
      simp [resolveNode, resolveList, resolveEntries, resolveFiles] at h <;>
      simp [← h.1]
  | succ f ih =>
    obtain ⟨ihN, ihL, ihE, ihF⟩ := ih
    refine ⟨?_, ?_, ?_, ?_⟩
    · intro d V e V' h t
      cases d <;> simp only [resolveNode] at h
      case ref loc rel =>
        split at h
        next hloc =>
          obtain ⟨he, hV⟩ := by simpa using h
          simp [← he]
        next hloc =>
          split at h
          next hguard => exact absurd (by simp) hguard.1
          next hguard =>
            split at h
            next hmem =>
              obtain ⟨he, hV⟩ := by simpa using h
              simp [← he]
            next hmem =>
              split at h
              next hlook =>
                obtain ⟨he, hV⟩ := by simpa using h
                simp [← he]
              next raw hlook =>
                split at h
                next r2 V2 heq => exact absurd h (by simp)
                next e2 V2 heq =>
                  obtain ⟨he, hV⟩ := by simpa using h
                  subst he
                  exact ihN _ _ _ _ heq t
      case refAll loc g =>
        split at h
        next hloc =>
          obtain ⟨he, hV⟩ := by simpa using h
          simp [← he]
        next hloc =>
          split at h
          next hempty =>
            obtain ⟨he, hV⟩ := by simpa using h
            simp [← he]
          next hempty =>
            split at h
            next rs V1 heq => exact absurd h (by simp)
            next e1 V1 heq =>
              obtain ⟨he, hV⟩ := by simpa using h
              subst he
              exact ihF _ _ _ _ heq t
      case seq items =>
        split at h
        next rs V1 heq => exact absurd h (by simp)
        next e1 V1 heq =>
          obtain ⟨he, hV⟩ := by simpa using h
          subst he
          exact ihL _ _ _ _ heq t
      case map es =>
        split at h
        next rs V1 heq => exact absurd h (by simp)
        next e1 V1 heq =>
          obtain ⟨he, hV⟩ := by simpa using h
          subst he
          exact ihE _ _ _ _ heq t
      case flatten items =>
        split at h
        next rs V1 heq => exact absurd h (by simp)
        next e1 V1 heq =>
          obtain ⟨he, hV⟩ := by simpa using h
          subst he
          exact ihL _ _ _ _ heq t
      all_goals exact absurd h (by simp)
    · intro l V e V' h t
      cases l with
      | nil => exact absurd h (by simp [resolveList])
      | cons d ds =>
        simp only [resolveList] at h
        split at h
        next r1 V1 heq1 =>
          split at h
          next rs V2 heq2 => exact absurd h (by simp)
          next e1 V2 heq2 =>
            obtain ⟨he, hV⟩ := by simpa using h
            subst he
            exact ihL _ _ _ _ heq2 t
        next e1 V1 heq1 =>
          obtain ⟨he, hV⟩ := by simpa using h
          subst he
          exact ihN _ _ _ _ heq1 t
    · intro es V e V' h t
      cases es with
      | nil => exact absurd h (by simp [resolveEntries])
      | cons kv rest =>
        obtain ⟨k, v⟩ := kv
        simp only [resolveEntries] at h
        split at h
        next r1 V1 heq1 =>
          split at h
          next rs V2 heq2 => exact absurd h (by simp)
          next e1 V2 heq2 =>
            obtain ⟨he, hV⟩ := by simpa using h
            subst he
            exact ihE _ _ _ _ heq2 t
        next e1 V1 heq1 =>
          obtain ⟨he, hV⟩ := by simpa using h
          subst he
          exact ihN _ _ _ _ heq1 t
    · intro ps V e V' h t
      cases ps with
      | nil => exact absurd h (by simp [resolveFiles])
      | cons p ps' =>
        simp only [resolveFiles] at h
        split at h
        next hmem =>
          obtain ⟨he, hV⟩ := by simpa using h
          simp [← he]
        next hmem =>
          split at h
          next hlook =>
            obtain ⟨he, hV⟩ := by simpa using h
            simp [← he]
          next raw hlook =>
            split at h
            next e1 V2 heq =>
              obtain ⟨he, hV⟩ := by simpa using h
              subst he
              exact ihN _ _ _ _ heq t
            next r1 V2 heq1 =>
              split at h
              next rs V4 heq2 => exact absurd h (by simp)
              next e1 V4 heq2 =>
                obtain ⟨he, hV⟩ := by simpa using h
                subst he
                exact ihF _ _ _ _ heq2 t

/-! ## The result of the top-level entry point depends on the glob
collaborator only through the filtered match lists -/

theorem multiMatches_ext (M₁ M₂ : Model) (allow : List String)
    (hglob : ∀ q, (M₁.glob q).Perm (M₂.glob q)) :
    ∀ q, multiMatches M₁ allow q = multiMatches M₂ allow q :=
  fun q => sortStrings_eq_of_perm (filterPipeline_perm allow (hglob q))

mutual
theorem docNeed_ext (M₁ M₂ : Model) (allow : List String)
    (hmm : ∀ q, multiMatches M₁ allow q = multiMatches M₂ allow q) :
    ∀ d, docNeed M₁ allow d = docNeed M₂ allow d := by
  intro d
  cases d <;> simp only [docNeed]
  case refAll loc g => rw [hmm]
  case seq items => rw [listNeed_ext M₁ M₂ allow hmm items]
  case map es => rw [entriesNeed_ext M₁ M₂ allow hmm es]
  case flatten items => rw [listNeed_ext M₁ M₂ allow hmm items]

theorem listNeed_ext (M₁ M₂ : Model) (allow : List String)
    (hmm : ∀ q, multiMatches M₁ allow q = multiMatches M₂ allow q) :
    ∀ l, listNeed M₁ allow l = listNeed M₂ allow l := by
  intro l
  match l with
  | [] => rfl
  | d :: ds =>
    simp only [listNeed]
    rw [docNeed_ext M₁ M₂ allow hmm d, listNeed_ext M₁ M₂ allow hmm ds]

theorem entriesNeed_ext (M₁ M₂ : Model) (allow : List String)
    (hmm : ∀ q, multiMatches M₁ allow q = multiMatches M₂ allow q) :
    ∀ es, entriesNeed M₁ allow es = entriesNeed M₂ allow es := by
  intro es
  match es with
  | [] => rfl
  | (k, v) :: rest =>
    simp only [entriesNeed]
    rw [docNeed_ext M₁ M₂ allow hmm v, entriesNeed_ext M₁ M₂ allow hmm rest]
end

theorem fileNeed_ext (M₁ M₂ : Model) (allow : List String)
    (hfiles : M₁.files = M₂.files)
    (hmm : ∀ q, multiMatches M₁ allow q = multiMatches M₂ allow q) :
    ∀ k, fileNeed M₁ allow k = fileNeed M₂ allow k := by
  intro k
  unfold fileNeed
  rw [hfiles]
  cases hl : lookupFile M₂.files k with
  | none => rfl
  | some raw => simp [docNeed_ext M₁ M₂ allow hmm]

theorem needList_ext (M₁ M₂ : Model) (allow : List String)
    (hfiles : M₁.files = M₂.files)
    (hmm : ∀ q, multiMatches M₁ allow q = multiMatches M₂ allow q) :
    ∀ ks V, needList M₁ allow ks V = needList M₂ allow ks V := by
  intro ks V
  induction ks with
  | nil => rfl
  | cons k ks' ih =>
    simp only [needList, ih, fileNeed_ext M₁ M₂ allow hfiles hmm k]

theorem freshNeed_ext (M₁ M₂ : Model) (allow : List String)
    (hfiles : M₁.files = M₂.files)
    (hmm : ∀ q, multiMatches M₁ allow q = multiMatches M₂ allow q) :
    ∀ V, freshNeed M₁ allow V = freshNeed M₂ allow V := by
  intro V
  unfold freshNeed
  rw [hfiles, needList_ext M₁ M₂ allow hfiles hmm]

theorem topFuel_ext (M₁ M₂ : Model) (allow : List String)
    (hfiles : M₁.files = M₂.files)
    (hmm : ∀ q, multiMatches M₁ allow q = multiMatches M₂ allow q)
    (d0 : Doc) : topFuel M₁ allow d0 = topFuel M₂ allow d0 := by
  unfold topFuel
  rw [docNeed_ext M₁ M₂ allow hmm d0, freshNeed_ext M₁ M₂ allow hfiles hmm]

theorem loadAndResolveM_ext (M₁ M₂ : Model) (entry : String)
    (extra : List String) (hfiles : M₁.files = M₂.files)
    (hglob : ∀ q, (M₁.glob q).Perm (M₂.glob q)) :
    loadAndResolveM M₁ entry extra = loadAndResolveM M₂ entry extra := by
  have hmm := multiMatches_ext M₁ M₂ (normalizeAllowPaths entry extra) hglob
  simp only [loadAndResolveM, hfiles]
  cases hl : lookupFile M₂.files entry with
  | none => rfl
  | some raw =>
    have ht := topFuel_ext M₁ M₂ (normalizeAllowPaths entry extra) hfiles hmm
      (stampDoc entry raw)
    have hres := (resolve_glob_ext M₁ M₂ (normalizeAllowPaths entry extra)
      hfiles hglob (topFuel M₂ (normalizeAllowPaths entry extra)
        (stampDoc entry raw))).1 (stampDoc entry raw) []
    simp only [ht, hres]

/-! ## Concrete collaborator models used by the claim theorems -/

/-- A marker-free document holding a nested sequence. -/
def flatDocExample : Doc :=
  .map [("data", .seq [.strV "a", .strV "b", .seq [.strV "c", .strV "d"]])]

/-- Model with one marker-free file. -/
def flatModel : Model :=
  { files := [("/t/main.yaml", flatDocExample)], glob := fun _ => [] }

/-- Model reproducing the repository's own sibling-prefix test: the entry
file references a file under `/tmp/allowed-but-not-really` while the allow
root is `/tmp/allowed`. -/
def siblingModel : Model :=
  { files := [
      ("/tmp/allowed/sub/main.yaml",
        .map [("evil", .ref "" "../../allowed-but-not-really/evil.yaml")]),
      ("/tmp/allowed-but-not-really/evil.yaml",
        .map [("data", .strV "gotcha")])],
    glob := fun _ => [] }

/-- Model whose entry file references a file that does not exist. -/
def missingModel : Model :=
  { files := [("/a/main.yaml", .ref "" "missing.yaml")], glob := fun _ => [] }

/-- Model whose entry references a missing file first and itself second:
its reference graph has a self-loop through the entry. -/
def cycleMissingModel : Model :=
  { files := [("/a/main.yaml",
      .seq [.ref "" "missing.yaml", .ref "" "main.yaml"])],
    glob := fun _ => [] }

/-- Model with a two-file reference cycle. -/
def twoCycleModel : Model :=
  { files := [("/a/x.yaml", .ref "" "y.yaml"), ("/a/y.yaml", .ref "" "x.yaml")],
    glob := fun _ => [] }

/-- Whether a result is a circular-reference failure. -/
def resultCircularB : Except RErr Doc → Bool
  | .error (.circular _) => true
  | _ => false

/-- Claim C1: the claim fails on the code. `loadAndResolve` post-processes
every result with `flattenSequences`, which splices nested arrays whether or
not a `Flatten` marker is present, so a marker-free document containing a
nested sequence is not returned structurally unchanged:
`{data: ["a", "b", ["c", "d"]]}` resolves to `{data: ["a", "b", "c", "d"]}`.
The repository's own test (`__tests__/resolver.test.ts`, "should not flatten
plain nested arrays without !flatten tag") expects the nesting preserved, so
the code contradicts its own test suite. -/
theorem c1_flattened_despite_no_markers :
    noMarkerB flatDocExample = true ∧
    loadAndResolveM flatModel "/t/main.yaml" []
      = .ok (.map [("data",
          .seq [.strV "a", .strV "b", .strV "c", .strV "d"])]) ∧
    loadAndResolveM flatModel "/t/main.yaml" [] ≠ .ok flatDocExample :=
  ⟨rfl, rfl, by decide⟩

/-- Modelled from the spec: the Path Guard test of §4.2 — an allowed root
admits a target only when it is a path-segment-aligned prefix of the
canonicalized target, i.e. equal to the whole path or followed immediately
by a path separator.  (Symlink canonicalization is outside this model: the
collaborator file system has no symlinks.) -/
def segmentAlignedPrefix (root target : String) : Bool :=
  (normAbs target = normAbs root)
    || strStartsWith (normAbs target) (normAbs root ++ "/")

/-- Claim C2: the claim fails on the code. The guard in `resolveReference`
is a bare `String.prototype.startsWith` on resolved paths with no segment
alignment (and no symlink canonicalization), so a target under the sibling
directory `/tmp/allowed-but-not-really` is admitted against the allowed root
`/tmp/allowed` and resolution succeeds, where the claim (and the
repository's own test "should reject references where allowedPath is a
prefix but not a path boundary") requires `PathNotAllowedError`. -/
theorem c2_prefix_guard_admits_sibling :
    codeAllowedB ["/tmp/allowed"] "/tmp/allowed-but-not-really/evil.yaml"
      = true ∧
    segmentAlignedPrefix "/tmp/allowed" "/tmp/allowed-but-not-really/evil.yaml"
      = false ∧
    loadAndResolveM siblingModel "/tmp/allowed/sub/main.yaml" ["/tmp/allowed"]
      = .ok (.map [("evil", .map [("data", .strV "gotcha")])]) :=
  ⟨rfl, rfl, rfl⟩

/-- Claim C3: the claim fails on the code. `resolveReference` deletes the
target from the visited set only on its success path; when the existence
check, the parse, or the nested resolution throws, the error propagates with
the target still in the set.  Evaluating the code on a reference to a
missing file: the call enters with an empty Ancestor Set and exits, failing,
with the set equal to `["/a/missing.yaml"]` instead of being restored.
(The per-match loop of `resolveReferenceAll` does unwind its own insertion
in its catch block; the single-reference paths have no such cleanup.) -/
theorem c3_ancestor_set_leaks_on_failure :
    (resolveNode missingModel [] 5 (.ref "/a/main.yaml" "missing.yaml") []).1
      = .error (.fileNotFound "/a/missing.yaml") ∧
    (resolveNode missingModel [] 5 (.ref "/a/main.yaml" "missing.yaml") []).2
      = ["/a/missing.yaml"] ∧
    (["/a/missing.yaml"] : List String) ≠ [] :=
  ⟨rfl, rfl, by decide⟩

/-- Claim C4 (counterexample): an entry file whose reference graph cycles
through the entry (it references itself directly) but which also references
a missing file earlier in document order fails with the file-not-found
error, not `CircularReferenceError`, so the claim's "always fails with
CircularReferenceError" does not hold as stated. -/
theorem c4_missing_file_preempts_circular :
    memStr "/a/main.yaml"
      (fileTargets cycleMissingModel
        (normalizeAllowPaths "/a/main.yaml" []) "/a/main.yaml") = true ∧
    loadAndResolveM cycleMissingModel "/a/main.yaml" []
      = .error (.fileNotFound "/a/missing.yaml") ∧
    resultCircularB (loadAndResolveM cycleMissingModel "/a/main.yaml" [])
      = false :=
  ⟨rfl, rfl, rfl⟩

/-- Claim C4 (amended): for every entry file whose reference graph contains
a cycle through the entry file (any length ≥ 1), the top-level resolve call
never returns a result and never exhausts its recursion budget — it always
fails; and the failure is `CircularReferenceError` provided no other error
(missing file, disallowed path, empty match list) preempts it, which the
well-formedness predicate `goodModelB` rules out. -/
theorem c4_cycle_always_fails :
    ∀ (M : Model) (entry : String) (extra : List String) (l : List String),
    List.Chain (edgeOf M (normalizeAllowPaths entry extra)) entry
      (l ++ [entry]) →
    (∀ d, loadAndResolveM M entry extra ≠ .ok d) ∧
    loadAndResolveM M entry extra ≠ .error .outOfFuel ∧
    (goodModelB M (normalizeAllowPaths entry extra) = true →
      ∃ t, loadAndResolveM M entry extra = .error (.circular t)) := by
  intro M entry extra l hch
  cases hlook : lookupFile M.files entry with
  | none =>
    exfalso
    obtain ⟨p1, rest, hcons⟩ : ∃ p1 rest, l ++ [entry] = p1 :: rest := by
      cases hl : l ++ [entry] with
      | nil => exact absurd hl (by simp)
      | cons x xs => exact ⟨x, xs, rfl⟩
    rw [hcons] at hch
    have hedge := (List.chain_cons.mp hch).1
    have hnil : fileTargets M (normalizeAllowPaths entry extra) entry = [] := by
      unfold fileTargets
      rw [hlook]
    have hmem : p1 ∈ fileTargets M (normalizeAllowPaths entry extra) entry :=
      hedge
    rw [hnil] at hmem
    exact absurd hmem (by simp)
  | some raw =>
    rcases hpair : resolveNode M (normalizeAllowPaths entry extra)
      (topFuel M (normalizeAllowPaths entry extra) (stampDoc entry raw))
      (stampDoc entry raw) [] with ⟨res, Vf⟩
    have hload : loadAndResolveM M entry extra = res.map flattenSequences := by
      simp only [loadAndResolveM, hlook, hpair]
    cases res with
    | ok r =>
      exfalso
      exact cycle_no_success M (normalizeAllowPaths entry extra) entry l hch
        raw hlook _ r (by rw [hpair])
    | error e =>
      have hne : e ≠ .outOfFuel := by
        intro he
        subst he
        have hs := (resolve_sufficient M (normalizeAllowPaths entry extra)
          (topFuel M (normalizeAllowPaths entry extra) (stampDoc entry raw))).1
          (stampDoc entry raw) [] (by unfold topFuel; exact Nat.le_refl _)
        rw [hpair] at hs
        exact hs rfl
      refine ⟨?_, ?_, ?_⟩
      · intro d hd
        rw [hload] at hd
        simp [Except.map] at hd
      · intro hd
        rw [hload] at hd
        have : e = .outOfFuel := by simpa [Except.map] using hd
        exact hne this
      · intro hg
        have hcls := (resolve_errors M (normalizeAllowPaths entry extra) hg
          (topFuel M (normalizeAllowPaths entry extra) (stampDoc entry raw))).1
          (stampDoc entry raw) [] e Vf
          (goodModel_lookup M (normalizeAllowPaths entry extra) hg entry raw
            hlook)
          hpair
        rcases hcls with hfuel | ⟨t, ht⟩
        · exact absurd hfuel hne
        · subst ht
          refine ⟨t, ?_⟩
          rw [hload]
          rfl

/-- Witness for the amended C4 theorem: on a concrete two-file cycle the
top-level resolve call fails with a circular-reference error. -/
theorem c4_cycle_always_fails_witness :
    resultCircularB (loadAndResolveM twoCycleModel "/a/x.yaml" []) = true := by
  obtain ⟨t, ht⟩ :=
    (c4_cycle_always_fails twoCycleModel "/a/x.yaml" [] ["/a/y.yaml"]
      (by
        refine List.chain_cons.mpr
          ⟨?_, List.chain_cons.mpr ⟨?_, List.Chain.nil⟩⟩
        · show "/a/y.yaml" ∈ fileTargets twoCycleModel
            (normalizeAllowPaths "/a/x.yaml" []) "/a/x.yaml"
          exact (memStr_iff_mem _ _).1 rfl
        · show "/a/x.yaml" ∈ fileTargets twoCycleModel
            (normalizeAllowPaths "/a/x.yaml" []) "/a/y.yaml"
          exact (memStr_iff_mem _ _).1 rfl)).2.2 (by rfl)
  rw [ht]
  rfl

/-- Glob result list used by the C5 witness (unsorted, with a non-YAML
entry). -/
def c5glob1 : List String :=
  ["/a/configs/two.yaml", "/a/configs/one.yaml", "/a/configs/readme.txt"]

/-- The same matches in a different order. -/
def c5glob2 : List String :=
  ["/a/configs/one.yaml", "/a/configs/two.yaml", "/a/configs/readme.txt"]

/-- Model with a `MultiReference` entry whose glob collaborator returns the
given list. -/
def multiModelWith (ms : List String) : Model :=
  { files := [
      ("/a/main.yaml", .refAll "" "configs/*.yaml"),
      ("/a/configs/one.yaml", .strV "one"),
      ("/a/configs/two.yaml", .strV "two")],
    glob := fun pat => if pat = "/a/configs/*.yaml" then ms else [] }

/-- Claim C5: a successful `MultiReference` resolution yields a sequence
whose elements correspond 1-1, in byte-wise ascending sorted order of the
filtered match paths, to the resolutions of the matched files; and the
overall result is invariant under permutations of the glob collaborator's
return order (same files, any order).  Part one is the permutation
invariance of the whole entry point; part two characterises a successful
`MultiReference` node: the result is a sequence, the match list
`multiMatches` is sorted, and the elements align with it pairwise. -/
theorem c5_multiref_order_contract :
    (∀ (M₁ M₂ : Model) (entry : String) (extra : List String),
      M₁.files = M₂.files → (∀ q, (M₁.glob q).Perm (M₂.glob q)) →
      loadAndResolveM M₁ entry extra = loadAndResolveM M₂ entry extra) ∧
    (∀ (M : Model) (allow : List String) (f : Nat) (loc g : String)
      (V : List String) (r : Doc) (V' : List String),
      resolveNode M allow f (.refAll loc g) V = (.ok r, V') →
      ∃ rs, r = .seq rs ∧
        List.Sorted strLeP
          (multiMatches M allow (resolvePath (dirname loc) g)) ∧
        List.Forall₂ (fun p rd => ∃ raw f2,
            lookupFile M.files p = some raw ∧
            (resolveNode M allow f2 (stampDoc p raw) (V ++ [p])).1 = .ok rd)
          (multiMatches M allow (resolvePath (dirname loc) g)) rs) := by
  constructor
  · intro M₁ M₂ entry extra hfiles hglob
    exact loadAndResolveM_ext M₁ M₂ entry extra hfiles hglob
  · intro M allow f loc g V r V' h
    cases f with
    | zero => simp [resolveNode] at h
    | succ f =>
      simp only [resolveNode] at h
      split at h
      next hloc => simp at h
      next hloc =>
        split at h
        next hempty => simp at h
        next hempty =>
          split at h
          next rs V1 heq =>
            obtain ⟨hr, hV⟩ : Doc.seq rs = r ∧ V1 = V' := by simpa using h
            subst hr
            refine ⟨rs, rfl, ?_, ?_⟩
            · exact sortStrings_sorted
                (filterPipeline allow (M.glob (resolvePath (dirname loc) g)))
            · exact resolveFiles_forall2 M allow f
                (sortStrings
                  (filterPipeline allow (M.glob (resolvePath (dirname loc) g))))
                V rs V1 heq
          next e V1 heq => simp at h

/-- Witness for C5: two glob orders of the same three matches give equal
results, and the concrete successful `MultiReference` node satisfies the
characterisation. -/
theorem c5_multiref_order_contract_witness :
    loadAndResolveM (multiModelWith c5glob1) "/a/main.yaml" []
      = loadAndResolveM (multiModelWith c5glob2) "/a/main.yaml" [] ∧
    (∃ rs, Doc.seq [Doc.strV "one", Doc.strV "two"] = .seq rs ∧
      List.Sorted strLeP
        (multiMatches (multiModelWith c5glob1) []
          (resolvePath (dirname "/a/main.yaml") "configs/*.yaml")) ∧
      List.Forall₂ (fun p rd => ∃ raw f2,
          lookupFile (multiModelWith c5glob1).files p = some raw ∧
          (resolveNode (multiModelWith c5glob1) [] f2 (stampDoc p raw)
            ([] ++ [p])).1 = .ok rd)
        (multiMatches (multiModelWith c5glob1) []
          (resolvePath (dirname "/a/main.yaml") "configs/*.yaml"))
        rs) := by
  constructor
  · refine c5_multiref_order_contract.1 (multiModelWith c5glob1)
      (multiModelWith c5glob2) "/a/main.yaml" [] rfl (fun q => ?_)
    show (if q = "/a/configs/*.yaml" then c5glob1 else []).Perm
      (if q = "/a/configs/*.yaml" then c5glob2 else [])
    by_cases hq : q = "/a/configs/*.yaml"
    · rw [if_pos hq, if_pos hq]
      exact List.Perm.swap _ _ _
    · rw [if_neg hq, if_neg hq]
  · exact c5_multiref_order_contract.2 (multiModelWith c5glob1) [] 9
      "/a/main.yaml" "configs/*.yaml" []
      (Doc.seq [Doc.strV "one", Doc.strV "two"]) [] (by rfl)

/-- Absence of reference-graph cycles reachable back to any node: no
non-empty edge path leads from a path back to itself. -/
def AcyclicModel (M : Model) (allow : List String) : Prop :=
  ∀ p l, ¬ List.Chain (edgeOf M allow) p (l ++ [p])

/-- Model with a single self-contained file. -/
def singleFileModel : Model :=
  { files := [("/w/a.yaml", .map [("k", .strV "v")])], glob := fun _ => [] }

/-- Claim C6: when the reference graph is acyclic, the top-level resolve
call terminates without exhausting its recursion budget (the fuel bound
`topFuel` suffices for every model, acyclic or not, because the visited set
grows inside the finite file set), and any document it returns contains no
`Reference`, `MultiReference`, `Flatten` or `Merge` markers. -/
theorem c6_acyclic_terminates_markerfree :
    ∀ (M : Model) (entry : String) (extra : List String),
    AcyclicModel M (normalizeAllowPaths entry extra) →
    loadAndResolveM M entry extra ≠ .error .outOfFuel ∧
    (∀ d, loadAndResolveM M entry extra = .ok d → noMarkerB d = true) := by
  intro M entry extra _hacyclic
  cases hlook : lookupFile M.files entry with
  | none =>
    constructor
    · simp [loadAndResolveM, hlook]
    · intro d hd
      simp [loadAndResolveM, hlook] at hd
  | some raw =>
    rcases hpair : resolveNode M (normalizeAllowPaths entry extra)
      (topFuel M (normalizeAllowPaths entry extra) (stampDoc entry raw))
      (stampDoc entry raw) [] with ⟨res, Vf⟩
    have hload : loadAndResolveM M entry extra = res.map flattenSequences := by
      simp only [loadAndResolveM, hlook, hpair]
    constructor
    · intro hd
      rw [hload] at hd
      cases res with
      | ok r => simp [Except.map] at hd
      | error e =>
        have he : e = .outOfFuel := by simpa [Except.map] using hd
        subst he
        have hs := (resolve_sufficient M (normalizeAllowPaths entry extra)
          (topFuel M (normalizeAllowPaths entry extra) (stampDoc entry raw))).1
          (stampDoc entry raw) [] (by unfold topFuel; exact Nat.le_refl _)
        rw [hpair] at hs
        exact hs rfl
    · intro d hd
      rw [hload] at hd
      cases res with
      | error e => simp [Except.map] at hd
      | ok r =>
        have hdr : flattenSequences r = d := by simpa [Except.map] using hd
        subst hdr
        exact flatten_noMarker r
          ((resolve_noRef M (normalizeAllowPaths entry extra)
            (topFuel M (normalizeAllowPaths entry extra)
              (stampDoc entry raw))).1
            (stampDoc entry raw) [] r Vf hpair)

/-- Witness for C6: the single-file model is acyclic, the entry resolves
without fuel exhaustion, and its (marker-free) result passes the marker
check. -/
theorem c6_acyclic_terminates_markerfree_witness :
    loadAndResolveM singleFileModel "/w/a.yaml" [] ≠ .error .outOfFuel ∧
    noMarkerB (.map [("k", .strV "v")]) = true := by
  have hac : AcyclicModel singleFileModel
      (normalizeAllowPaths "/w/a.yaml" []) := by
    intro p l hch
    obtain ⟨p1, rest, hcons⟩ : ∃ p1 rest, l ++ [p] = p1 :: rest := by
      cases hl2 : l ++ [p] with
      | nil => exact absurd hl2 (by simp)
      | cons x xs => exact ⟨x, xs, rfl⟩
    rw [hcons] at hch
    have hedge := (List.chain_cons.mp hch).1
    have hmem : p1 ∈ fileTargets singleFileModel
        (normalizeAllowPaths "/w/a.yaml" []) p := hedge
    revert hmem
    unfold fileTargets
    cases hl : lookupFile singleFileModel.files p with
    | none => simp
    | some raw =>
      have hpr := lookupFile_mem singleFileModel.files p raw hl
      have hp : p = "/w/a.yaml" ∧ raw = .map [("k", .strV "v")] := by
        simpa [singleFileModel] using hpr
      rw [hp.1, hp.2]
      simp [docTargetsOf, docTargetsEntries, docTargetsList, stampDoc,
        stampEntries]
  have h := c6_acyclic_terminates_markerfree singleFileModel "/w/a.yaml" [] hac
  exact ⟨h.1, h.2 (.map [("k", .strV "v")]) (by rfl)⟩

/-- Claim C7 (counterexample): `flattenSequences` does not leave non-array
elements untouched — it rewrites them recursively, flattening any nested
arrays inside.  An array holding one mapping whose value is a
doubly-nested array keeps the mapping element in place, but the element
comes out with its inner nesting spliced. -/
theorem c7_flatten_rewrites_nonseq_element :
    flattenSequences (.seq [.map [("k", .seq [.seq [.null]])]])
      = .seq [.map [("k", .seq [.null])]] ∧
    (Doc.map [("k", .seq [.null])]) ≠ .map [("k", .seq [.seq [.null]])] :=
  ⟨rfl, by decide⟩

/-- Claim C7 (amended): the `Flatten` post-processing of arrays (a) leaves
no element that is itself an array, (b) is the identity on arrays of
scalars, (c) keeps a non-array, non-`Flatten` element in place up to
recursive flattening of its contents, (d) is idempotent, and (e) collapses
one level of nesting per pass in the sense that `[a, [b, [c]]]` and
`[a, b, c]` flatten identically. -/
theorem c7_flatten_amended :
    (∀ items, noSeqElemB (flattenList items) = true) ∧
    (∀ items, (∀ e ∈ items, isScalarB e = true) → flattenList items = items) ∧
    (∀ (pre : List Doc) (d : Doc) (post : List Doc),
      isSeqB d = false → isFlattenB d = false →
      flattenList (pre ++ d :: post)
        = flattenList pre ++ flattenSequences d :: flattenList post) ∧
    (∀ d, flattenSequences (flattenSequences d) = flattenSequences d) ∧
    (∀ a b c, flattenList [a, .seq [b, .seq [c]]] = flattenList [a, b, c]) :=
  ⟨flattenList_noSeqElem, flattenList_scalars, flattenList_passthrough,
    fun d => (flatten_idem d).1, flattenList_nesting⟩

/-- Witness for the amended C7 theorem at concrete documents. -/
theorem c7_flatten_amended_witness :
    noSeqElemB (flattenList [Doc.strV "a", Doc.seq [Doc.strV "b"]]) = true ∧
    flattenList [Doc.strV "a", Doc.strV "b"] = [Doc.strV "a", Doc.strV "b"] ∧
    flattenList ([] ++ Doc.map [("k", Doc.null)] :: [])
      = flattenList [] ++
        flattenSequences (Doc.map [("k", Doc.null)]) :: flattenList [] ∧
    flattenSequences (flattenSequences (Doc.seq [Doc.seq [Doc.null]]))
      = flattenSequences (Doc.seq [Doc.seq [Doc.null]]) ∧
    flattenList [Doc.null, Doc.seq [Doc.boolV true, Doc.seq [Doc.numV 3]]]
      = flattenList [Doc.null, Doc.boolV true, Doc.numV 3] :=
  ⟨c7_flatten_amended.1 [Doc.strV "a", Doc.seq [Doc.strV "b"]],
    c7_flatten_amended.2.1 [Doc.strV "a", Doc.strV "b"] (by decide),
    c7_flatten_amended.2.2.1 [] (Doc.map [("k", Doc.null)]) [] rfl rfl,
    c7_flatten_amended.2.2.2.1 (Doc.seq [Doc.seq [Doc.null]]),
    c7_flatten_amended.2.2.2.2 Doc.null (Doc.boolV true) (Doc.numV 3)⟩

/-- Claim C8 (modelled from the spec, as the merge-resolving revision of the
resolver is not among the sources): resolving a Merge marker (a) yields an
empty mapping for an empty sequence, (b) on a sequence of mappings produces
a mapping in which each key's value is the value from the last mapping (in
flattened sequence order) containing that key — last write wins, stated as
a first-match lookup over the reversed concatenation of all entries — and
(c) fails with a `MergeTypeError` carrying the position of the first
non-mapping element when one exists. -/
theorem c8_merge_lww :
    applyMerge [] = .ok ([] : List (String × Doc)) ∧
    (∀ (ms : List (List (String × Doc))) (m : List (String × Doc)),
      applyMerge (ms.map Doc.map) = .ok m →
      ∀ k, lookupKey m k = lookupKey ((ms.flatMap id).reverse) k) ∧
    (∀ (pre : List Doc) (d : Doc) (post : List Doc),
      (∀ e ∈ pre, isMapB e = true) → isMapB d = false → isSeqB d = false →
      applyMerge (pre ++ d :: post) = .error pre.length) := by
  refine ⟨rfl, ?_, applyMerge_offender⟩
  intro ms m hm k
  rw [applyMerge_maps ms] at hm
  have hmm : mergeDocs [] (ms.map Doc.map) = m := by simpa using hm
  subst hmm
  rw [mergeDocs_lookup ms [] k]
  simp [lookupKey]

/-- Witness for C8: merging `[{a: 1, b: 2}, {b: 3, c: 4}]` gives `b = 3`
(the later mapping wins), and a non-mapping element at position 1 raises
the merge type error carrying 1. -/
theorem c8_merge_lww_witness :
    applyMerge [] = .ok ([] : List (String × Doc)) ∧
    lookupKey [("a", Doc.numV 1), ("b", Doc.numV 3), ("c", Doc.numV 4)] "b"
      = lookupKey ((([[("a", Doc.numV 1), ("b", Doc.numV 2)],
          [("b", Doc.numV 3), ("c", Doc.numV 4)]] :
            List (List (String × Doc))).flatMap id).reverse) "b" ∧
    lookupKey [("a", Doc.numV 1), ("b", Doc.numV 3), ("c", Doc.numV 4)] "b"
      = some (Doc.numV 3) ∧
    applyMerge [Doc.map [("a", Doc.null)], Doc.strV "x"] = .error 1 := by
  refine ⟨c8_merge_lww.1, ?_, by rfl, ?_⟩
  · exact c8_merge_lww.2.1
      [[("a", Doc.numV 1), ("b", Doc.numV 2)],
        [("b", Doc.numV 3), ("c", Doc.numV 4)]]
      [("a", Doc.numV 1), ("b", Doc.numV 3), ("c", Doc.numV 4)] (by rfl) "b"
  · exact c8_merge_lww.2.2 [Doc.map [("a", Doc.null)]] (Doc.strV "x") []
      (by decide) rfl rfl

/-- Model with no files and an empty glob collaborator. -/
def emptyGlobModel : Model :=
  { files := [], glob := fun _ => [] }

/-- Claim C9: (a) the `MultiReference` filter pipeline silently drops a
match that fails the extension check, or (when the allow list is non-empty)
fails the allow check — removing it changes nothing; (b) when the filtered
match list is empty the node fails with `NoMatchingFilesError` and the
Ancestor Set is untouched; (c) when it is non-empty the node's outcome is
exactly the outcome of the per-match loop over the sorted filtered list —
matched files that fail to resolve make the whole node fail rather than
being skipped; (d) by contrast a single `Reference` to a disallowed target
fails hard with `PathNotAllowedError`. -/
theorem c9_silent_exclusion_vs_hard_failure :
    (∀ (allow l₁ l₂ : List String) (junk : String),
      ((strEndsWith junk ".yaml" || strEndsWith junk ".yml") = false ∨
        (allow ≠ [] ∧ codeAllowedB allow junk = false)) →
      filterPipeline allow (l₁ ++ junk :: l₂) = filterPipeline allow (l₁ ++ l₂)) ∧
    (∀ (M : Model) (allow : List String) (f : Nat) (loc g : String)
      (V : List String),
      filterPipeline allow (M.glob (resolvePath (dirname loc) g)) = [] →
      ¬ loc = "" →
      resolveNode M allow (f + 1) (.refAll loc g) V
        = (.error (.noMatch (resolvePath (dirname loc) g)), V)) ∧
    (∀ (M : Model) (allow : List String) (f : Nat) (loc g : String)
      (V : List String) (res : Except RErr (List Doc) × List String),
      filterPipeline allow (M.glob (resolvePath (dirname loc) g)) ≠ [] →
      ¬ loc = "" →
      resolveFiles M allow f
        (sortStrings (filterPipeline allow
          (M.glob (resolvePath (dirname loc) g)))) V = res →
      resolveNode M allow (f + 1) (.refAll loc g) V
        = (match res with
           | (.ok rs, V1) => (.ok (.seq rs), V1)
           | (.error e, V1) => (.error e, V1))) ∧
    (∀ (M : Model) (allow : List String) (f : Nat) (loc rel : String)
      (V : List String),
      ¬ loc = "" → allow ≠ [] →
      codeAllowedB allow (resolvePath (dirname loc) rel) = false →
      resolveNode M allow (f + 1) (.ref loc rel) V
        = (.error (.pathNotAllowed (resolvePath (dirname loc) rel)), V)) := by
  refine ⟨?_, ?_, ?_, ?_⟩
  · intro allow l₁ l₂ junk hjunk
    simp only [filterPipeline]
    rcases hjunk with hext | ⟨hne, hca⟩
    · have hfe : (l₁ ++ junk :: l₂).filter
          (fun f => strEndsWith f ".yaml" || strEndsWith f ".yml")
        = (l₁ ++ l₂).filter
          (fun f => strEndsWith f ".yaml" || strEndsWith f ".yml") := by
        simp [List.filter_append, List.filter_cons, hext]
      rw [hfe]
    · have hemp : allow.isEmpty = false := by
        cases allow with
        | nil => exact absurd rfl hne
        | cons a as => rfl
      simp only [hemp, Bool.false_eq_true, if_false]
      by_cases hext2 :
          (strEndsWith junk ".yaml" || strEndsWith junk ".yml") = true
      · simp [List.filter_append, List.filter_cons, hext2, hca]
      · simp [List.filter_append, List.filter_cons, hext2]
  · intro M allow f loc g V hmsE hloc
    simp only [resolveNode]
    rw [if_neg hloc]
    simp [hmsE]
  · intro M allow f loc g V res hne hloc heq
    have hemp : (filterPipeline allow
        (M.glob (resolvePath (dirname loc) g))).isEmpty = false := by
      cases hc : filterPipeline allow (M.glob (resolvePath (dirname loc) g)) with
      | nil => exact absurd hc hne
      | cons a as => rfl
    simp only [resolveNode]
    rw [if_neg hloc]
    simp only [hemp, Bool.false_eq_true, if_false]
    rw [heq]
  · intro M allow f loc rel V hloc hne hca
    simp only [resolveNode]
    rw [if_neg hloc]
    rw [if_pos (show ¬ allow.isEmpty = true ∧
        codeAllowedB allow (resolvePath (dirname loc) rel) = false from
      ⟨fun hE => hne (List.isEmpty_iff.mp hE), hca⟩)]

/-- Witness for C9 at concrete inputs: a `.txt` match is dropped silently;
an empty match list gives the no-match error with the set unchanged; a
non-empty match list gives exactly the loop result; a disallowed single
reference fails with the path-not-allowed error. -/
theorem c9_silent_exclusion_vs_hard_failure_witness :
    filterPipeline [] (["/a/x.yaml"] ++ "/a/notes.txt" :: [])
      = filterPipeline [] (["/a/x.yaml"] ++ []) ∧
    resolveNode emptyGlobModel [] 4 (.refAll "/a/main.yaml" "*.yaml") []
      = (.error (.noMatch (resolvePath (dirname "/a/main.yaml") "*.yaml")),
        []) ∧
    resolveNode (multiModelWith c5glob1) [] 9
        (.refAll "/a/main.yaml" "configs/*.yaml") []
      = (.ok (.seq [.strV "one", .strV "two"]), []) ∧
    resolveNode emptyGlobModel ["/ok"] 4
        (.ref "/a/main.yaml" "secret.yaml") []
      = (.error (.pathNotAllowed
          (resolvePath (dirname "/a/main.yaml") "secret.yaml")), []) := by
  refine ⟨?_, ?_, ?_, ?_⟩
  · exact c9_silent_exclusion_vs_hard_failure.1 [] ["/a/x.yaml"] []
      "/a/notes.txt" (Or.inl rfl)
  · exact c9_silent_exclusion_vs_hard_failure.2.1 emptyGlobModel [] 3
      "/a/main.yaml" "*.yaml" [] rfl (by decide)
  · exact c9_silent_exclusion_vs_hard_failure.2.2.1 (multiModelWith c5glob1)
      [] 8 "/a/main.yaml" "configs/*.yaml" []
      (.ok [.strV "one", .strV "two"], []) (by decide) (by decide) (by rfl)
  · exact c9_silent_exclusion_vs_hard_failure.2.2.2 emptyGlobModel ["/ok"] 3
      "/a/main.yaml" "secret.yaml" [] (by decide) (by decide) rfl

/-- The allow-list accumulator never empties: it starts non-empty and only
grows. -/
theorem foldl_allowStep_ne_nil (l : List String) :
    ∀ acc : List String, acc ≠ [] →
    l.foldl (fun acc a =>
      let ra := normAbs a
      if memStr ra acc then acc else acc ++ [ra]) acc ≠ [] := by
  induction l with
  | nil =>
    intro acc h
    simpa using h
  | cons a as ih =>
    intro acc h
    simp only [List.foldl_cons]
    apply ih
    by_cases hm : memStr (normAbs a) acc = true
    · simpa [hm] using h
    · simp [hm]

/-- Claim C10: with an empty caller-supplied allow list the guard never
fires: (a) running the resolver with the empty allow list never produces a
`PathNotAllowedError` on any node, (b) the `MultiReference` pipeline with
an empty allow list reduces to the extension filter alone, and (c) the
normalized allow list the entry point builds is nevertheless never empty
(it always holds the entry file's parent directory), so the emptiness test
happens on the caller-supplied list, before normalization. -/
theorem c10_empty_allowlist_admits_everything :
    (∀ (M : Model) (f : Nat) (d : Doc) (V : List String) (e : RErr)
      (V' : List String),
      resolveNode M [] f d V = (.error e, V') → ∀ t, e ≠ .pathNotAllowed t) ∧
    (∀ ms : List String, filterPipeline [] ms
      = ms.filter (fun fp => strEndsWith fp ".yaml" || strEndsWith fp ".yml")) ∧
    (∀ (fp : String) (extra : List String),
      normalizeAllowPaths fp extra ≠ []) := by
  refine ⟨?_, ?_, ?_⟩
  · intro M f d V e V' h t
    exact (resolve_no_pathNotAllowed M f).1 d V e V' h t
  · intro ms
    rfl
  · intro fp extra
    exact foldl_allowStep_ne_nil extra [dirname (normAbs fp)] (by simp)

/-- Witness for C10: a resolution failure under the empty allow list (a
missing file) is not a path-not-allowed error, and a concrete normalized
allow list is non-empty. -/
theorem c10_empty_allowlist_admits_everything_witness :
    (RErr.fileNotFound "/a/missing.yaml" ≠ .pathNotAllowed "/x") ∧
    normalizeAllowPaths "/a/main.yaml" [] ≠ [] := by
  constructor
  · exact c10_empty_allowlist_admits_everything.1 missingModel 5
      (.ref "/a/main.yaml" "missing.yaml") []
      (.fileNotFound "/a/missing.yaml") ["/a/missing.yaml"] (by rfl) "/x"
  · exact c10_empty_allowlist_admits_everything.2.2 "/a/main.yaml" []
